import Mathlib

/-!
# Parallel image processor: a shallow embedding of `parallel_image_processor.c`

The three filter tasks (`apply_grayscale`, `apply_invert`, `apply_blur`), the
progress renderer `show_progress` and the coordinator `main` are embedded as
executable Lean functions.

Conventions of the embedding.

* A C `int` is a Lean `Int`.  Signed arithmetic is not wrapped: the embedding
  describes the program on images whose sample count, and the products of
  dimensions the program forms, stay inside the `int` range, which is where the C
  arithmetic is defined at all.
* An `unsigned char` is a `Byte` (`Fin 256`); a store converts an `int` with
  `toByte`, i.e. modulo 256.
* A buffer is a `List Byte`.  A load or store outside the buffer, and a `%` with a
  zero divisor, are faults: the embedded function returns `Except.error`.
* A `float` is the rational number it denotes.  Each `float` operation (the conversion
  of an `int`, a product, a quotient) is the exact result rounded to the nearest
  `float` by `roundFloat`: IEEE 754 single precision, 24 significant bits, round to
  nearest with ties to even, each operation rounded on its own.  Infinities and NaN
  are not represented: a value too large for a `float` stays finite and is then
  rejected by the cast to `int`, and a quotient by zero, which no loop of the program
  forms, is 0.
* The cast `(int)` of a `float` truncates toward zero and is a fault when the
  truncated value does not fit an `int`, where C leaves it undefined.
* A call of `show_progress` is recorded in the console with its label and the `float`
  it is passed; `show_progress` gives the line printed for it.
* The `double` values of the timing lines are the exact quotients.
* The `for` loops of the filters are run by `forLoop` with fuel; every caller
  supplies more fuel than the loop can use, so `Fault.outOfFuel` is never the outcome
  for a positive stride.  The 40 cells of the progress bar are a map over `0 .. 39`.
* The three threads share only the read-only input, so `main` runs them one after
  the other; a fault in a thread ends the whole process.
* What the environment decides (the content of a block returned by `malloc`, the
  readings of `clock`, the result of the decoder and of the encoder) is an explicit
  input.
-/

namespace ImageProcessor

/-! ## Memory -/

/-- An `unsigned char`. -/
abbrev Byte := Fin 256

deriving instance DecidableEq for Except

/-- The ways a run can stop before its end. -/
inductive Fault where
  | outOfBounds
  | divByZero
  | outOfFuel
  | castOverflow
  deriving DecidableEq, Repr

/-- Conversion of an `int` to `unsigned char`: reduction modulo 256. -/
def toByte (v : Int) : Byte :=
  ⟨(v % 256).toNat, by omega⟩

/-- Read `buf[i]`, promoted to `int`. -/
def load (buf : List Byte) (i : Int) : Except Fault Int :=
  if 0 ≤ i ∧ i < buf.length then .ok ((buf.getD i.toNat 0).val : Int)
  else .error .outOfBounds

/-- Write `buf[i] = v`. -/
def store (buf : List Byte) (i : Int) (v : Byte) : Except Fault (List Byte) :=
  if 0 ≤ i ∧ i < buf.length then .ok (buf.set i.toNat v)
  else .error .outOfBounds

/-- The block `malloc(size)` returns: `size` bytes whose content `heap` is whatever
the allocator left there. -/
def malloc (heap : Nat → Byte) (size : Int) : List Byte :=
  (List.range size.toNat).map heap

/-- The loop `for (i = start; i < hi; i += step) body`, applied to a state. -/
def forLoop {σ : Type} (hi step : Int) (body : Int → σ → Except Fault σ) :
    Nat → Int → σ → Except Fault σ
  | 0, _, _ => .error .outOfFuel
  | fuel + 1, i, s =>
    if i < hi then
      match body i s with
      | .ok s' => forLoop hi step body fuel (i + step) s'
      | .error e => .error e
    else .ok s

/-! ## Data model and console -/

/-- The C struct `ThreadData`: the decoded samples and the image shape. -/
structure ThreadData where
  data : List Byte
  width : Int
  height : Int
  channels : Int
  deriving DecidableEq, Repr

/-- One piece of console output. -/
inductive Out where
  /-- A call `show_progress(task, progress)`. -/
  | progress (task : String) (fraction : Rat)
  /-- A `printf` of fixed text. -/
  | text (s : String)
  /-- A `printf` of a label followed by a number of seconds (`%.3f sec`). -/
  | seconds (label : String) (value : Rat)
  /-- The `printf` of the CPU line: user and system seconds. -/
  | cpu (user : Rat) (system : Rat)
  deriving DecidableEq, Repr

/-- The arguments of one call of `stbi_write_jpg`. -/
structure EncodeCall where
  path : String
  width : Int
  height : Int
  channels : Int
  pixels : List Byte
  quality : Int
  deriving DecidableEq, Repr

/-- What a filter task leaves behind: its console output and its encode call. -/
structure FilterRun where
  console : List Out
  encode : EncodeCall
  deriving DecidableEq, Repr

/-- What the environment supplies to one filter task. -/
structure TaskEnv where
  /-- Content of the block `malloc` returns. -/
  heap : Nat → Byte
  /-- Reading of `clock()` before the pixel loop. -/
  start : Int
  /-- Reading of `clock()` after the encode call. -/
  stop : Int
  /-- Return value of `stbi_write_jpg` (0 on failure). -/
  written : Int

/-- The constant `CLOCKS_PER_SEC`. -/
def CLOCKS_PER_SEC : Int := 1000000

/-- Truncation toward zero, the rounding of the C cast `(int)`. -/
def truncate (q : Rat) : Int :=
  q.num.tdiv q.den

/-- The `printf` conversion `%3d`: right aligned in at least three columns. -/
def pad3 (v : Int) : String :=
  let s := toString v
  String.mk (List.replicate (3 - s.length) ' ') ++ s

/-! ## Single-precision arithmetic -/

/-- Rounding of a rational to the nearest integer, ties to the even one. -/
def roundHalfEven (x : Rat) : Int :=
  if x - ⌊x⌋ < 1 / 2 then ⌊x⌋
  else if 1 / 2 < x - ⌊x⌋ then ⌊x⌋ + 1
  else if ⌊x⌋ % 2 = 0 then ⌊x⌋ else ⌊x⌋ + 1

/-- Exponent of the spacing of the `float`s around `x`: 24 significant bits, and the
spacing 2^-149 of the subnormal numbers below 2^-126. -/
def ulpExponent (x : Rat) : Int :=
  max (Int.log 2 |x|) (-126) - 23

/-- The `float` nearest to `x`, ties to even. -/
def roundFloat (x : Rat) : Rat :=
  (roundHalfEven (x / 2 ^ ulpExponent x) : Rat) * 2 ^ ulpExponent x

/-- The conversion `(float)i` of an `int`. -/
def floatOfInt (i : Int) : Rat :=
  roundFloat i

/-- The product of two `float`s. -/
def floatMul (a b : Rat) : Rat :=
  roundFloat (a * b)

/-- The quotient of two `float`s, for a divisor other than 0. -/
def floatDiv (a b : Rat) : Rat :=
  roundFloat (a / b)

/-- The cast `(int)x`: truncation toward zero, undefined in C when the truncated value
is not an `int`. -/
def intOfFloat (x : Rat) : Except Fault Int :=
  if -2147483649 < x ∧ x < 2147483648 then .ok (truncate x) else .error .castOverflow

/-! ## Progress bar -/

/-- What `show_progress` prints once the bar position `pos` and the percentage `pct`
are computed: the label, the 40 cells between brackets, the percentage. -/
def progressLine (task : String) (pos pct : Int) : String :=
  let barWidth : Int := 40
  let cell (i : Nat) : Char :=
    if (i : Int) < pos then '=' else if (i : Int) = pos then '>' else ' '
  "\r" ++ task ++ " [" ++ String.mk ((List.range barWidth.toNat).map cell)
    ++ "] " ++ pad3 pct ++ "%"

/-- The text `show_progress(task, progress)` prints, for a `float` `progress`: the bar
position is `(int)(barWidth * progress)` and the percentage `(int)(progress * 100)`,
both products taken in `float`. -/
def show_progress (task : String) (progress : Rat) : Except Fault String := do
  let barWidth : Int := 40
  let pos ← intOfFloat (floatMul (floatOfInt barWidth) progress)
  let pct ← intOfFloat (floatMul progress (floatOfInt 100))
  .ok (progressLine task pos pct)

/-! ## The encoder -/

/-- The call `stbi_write_jpg(...)`: the call made, and the value the encoder returns
for it. -/
def stbi_write_jpg (e : TaskEnv) (call : EncodeCall) : EncodeCall × Int :=
  (call, e.written)

/-! ## Filter 1: grayscale -/

/-- Body of the pixel loop of `apply_grayscale`, at sample index `i`. -/
def grayscaleBody (t : ThreadData) (i : Int) (s : List Byte × List Out) :
    Except Fault (List Byte × List Out) := do
  let r ← load t.data i
  let g ← load t.data (i + 1)
  let b ← load t.data (i + 2)
  let gray : Byte := toByte ((r + g + b).tdiv 3)
  let gray_img ← store s.1 (i + 2) gray
  let gray_img ← store gray_img (i + 1) gray
  let gray_img ← store gray_img i gray
  let every : Int := t.width * t.channels * 50
  if every = 0 then .error .divByZero
  else if i.tmod every = 0 then
    .ok (gray_img,
      s.2 ++ [Out.progress "Grayscale"
        (floatDiv (floatOfInt i) (floatOfInt (t.width * t.height * t.channels)))])
  else .ok (gray_img, s.2)

/-- The thread routine `apply_grayscale`.  The value `stbi_write_jpg` returns is not used. -/
def apply_grayscale (e : TaskEnv) (t : ThreadData) : Except Fault FilterRun := do
  let size : Int := t.width * t.height * t.channels
  let gray_img := malloc e.heap size
  let s ← forLoop size t.channels (grayscaleBody t) (size.toNat + 1) 0 (gray_img, [])
  let result := stbi_write_jpg e
    { path := "output_gray.jpg", width := t.width, height := t.height,
      channels := t.channels, pixels := s.1, quality := 100 }
  .ok
    { console := s.2 ++ [Out.progress "Grayscale" 1, Out.text " ✅\n",
        Out.seconds "🕒 Grayscale completed in" ((e.stop - e.start : Int) / (CLOCKS_PER_SEC : Int))]
      encode := result.1 }

/-! ## Filter 2: invert -/

/-- The per-sample operation of `apply_invert`: `255 - x`, stored as a byte. -/
def invertSample (x : Int) : Byte :=
  toByte (255 - x)

/-- Body of the pixel loop of `apply_invert`, at sample index `i`. -/
def invertBody (t : ThreadData) (i : Int) (s : List Byte × List Out) :
    Except Fault (List Byte × List Out) := do
  let r ← load t.data i
  let inv_img ← store s.1 i (invertSample r)
  let g ← load t.data (i + 1)
  let inv_img ← store inv_img (i + 1) (invertSample g)
  let b ← load t.data (i + 2)
  let inv_img ← store inv_img (i + 2) (invertSample b)
  let every : Int := t.width * t.channels * 50
  if every = 0 then .error .divByZero
  else if i.tmod every = 0 then
    .ok (inv_img,
      s.2 ++ [Out.progress "Invert   "
        (floatDiv (floatOfInt i) (floatOfInt (t.width * t.height * t.channels)))])
  else .ok (inv_img, s.2)

/-- The thread routine `apply_invert`.  The value `stbi_write_jpg` returns is not used. -/
def apply_invert (e : TaskEnv) (t : ThreadData) : Except Fault FilterRun := do
  let size : Int := t.width * t.height * t.channels
  let inv_img := malloc e.heap size
  let s ← forLoop size t.channels (invertBody t) (size.toNat + 1) 0 (inv_img, [])
  let result := stbi_write_jpg e
    { path := "output_invert.jpg", width := t.width, height := t.height,
      channels := t.channels, pixels := s.1, quality := 100 }
  .ok
    { console := s.2 ++ [Out.progress "Invert   " 1, Out.text " ✅\n",
        Out.seconds "🕒 Invert completed in" ((e.stop - e.start : Int) / (CLOCKS_PER_SEC : Int))]
      encode := result.1 }

/-! ## Filter 3: blur -/

/-- The three running sums `sum[0]`, `sum[1]`, `sum[2]`. -/
abbrev Sums := Int × Int × Int

/-- Body of the innermost loop of `apply_blur`: the tap `(kx, ky)` of the window
centred at `(x, y)` is added to the sums. -/
def blurTap (t : ThreadData) (x y ky kx : Int) (sum : Sums) : Except Fault Sums := do
  let idx : Int := ((y + ky) * t.width + (x + kx)) * t.channels
  let a ← load t.data idx
  let b ← load t.data (idx + 1)
  let c ← load t.data (idx + 2)
  .ok (sum.1 + a, sum.2.1 + b, sum.2.2 + c)

/-- The two loops over `ky` and `kx`, from -1 to 1 inclusive, starting from zero sums. -/
def blurWindow (t : ThreadData) (x y : Int) : Except Fault Sums :=
  forLoop 2 1 (fun ky sum => forLoop 2 1 (fun kx sum => blurTap t x y ky kx sum) 4 (-1) sum)
    4 (-1) (0, 0, 0)

/-- Body of the loop over `x` in `apply_blur`, on row `y`. -/
def blurPixel (t : ThreadData) (y x : Int) (blur_img : List Byte) :
    Except Fault (List Byte) := do
  let sum ← blurWindow t x y
  let i : Int := (y * t.width + x) * t.channels
  let blur_img ← store blur_img i (toByte (sum.1.tdiv 9))
  let blur_img ← store blur_img (i + 1) (toByte (sum.2.1.tdiv 9))
  store blur_img (i + 2) (toByte (sum.2.2.tdiv 9))

/-- Body of the loop over `y` in `apply_blur`: the row, then the progress line. -/
def blurRow (t : ThreadData) (y : Int) (s : List Byte × List Out) :
    Except Fault (List Byte × List Out) := do
  let blur_img ← forLoop (t.width - 1) 1 (blurPixel t y) (t.width.toNat + 1) 1 s.1
  let every : Int := t.height.tdiv 50
  if every = 0 then .error .divByZero
  else if y.tmod every = 0 then
    .ok (blur_img,
      s.2 ++ [Out.progress "Blur     " (floatDiv (floatOfInt y) (floatOfInt t.height))])
  else .ok (blur_img, s.2)

/-- The thread routine `apply_blur`.  The value `stbi_write_jpg` returns is not used. -/
def apply_blur (e : TaskEnv) (t : ThreadData) : Except Fault FilterRun := do
  let size : Int := t.width * t.height * t.channels
  let blur_img := malloc e.heap size
  let s ← forLoop (t.height - 1) 1 (blurRow t) (t.height.toNat + 1) 1 (blur_img, [])
  let result := stbi_write_jpg e
    { path := "output_blur.jpg", width := t.width, height := t.height,
      channels := t.channels, pixels := s.1, quality := 100 }
  .ok
    { console := s.2 ++ [Out.progress "Blur     " 1, Out.text " ✅\n",
        Out.seconds "🕒 Blur completed in" ((e.stop - e.start : Int) / (CLOCKS_PER_SEC : Int))]
      encode := result.1 }

/-! ## Coordinator -/

/-- What the environment supplies to `main`. -/
structure World where
  /-- Result of `stbi_load("input.jpg", ..., 0)`: `none` for `NULL`. -/
  image : Option ThreadData
  /-- Environment of the grayscale thread. -/
  gray : TaskEnv
  /-- Environment of the invert thread. -/
  invert : TaskEnv
  /-- Environment of the blur thread. -/
  blur : TaskEnv
  /-- Reading of `gettimeofday` on entry, in seconds. -/
  start_time : Rat
  /-- Reading of `gettimeofday` after the joins, in seconds. -/
  end_time : Rat
  /-- Reading of `clock()` before the threads are created. -/
  total_start : Int
  /-- Reading of `clock()` after the joins. -/
  total_end : Int
  /-- Field `ru_utime` of `getrusage`, in seconds. -/
  utime : Rat
  /-- Field `ru_stime` of `getrusage`, in seconds. -/
  stime : Rat

/-- What a run of `main` that returns leaves behind. -/
structure MainRun where
  /-- The value `main` returns. -/
  status : Int
  /-- Start routines handed to `pthread_create`, in order. -/
  threads : List String
  /-- Calls of `stbi_write_jpg` made by the threads. -/
  encodes : List EncodeCall
  /-- Console output, thread by thread. -/
  console : List Out
  deriving DecidableEq, Repr

/-- The function `main`.  The threads share only the read-only input, so each is run
on its own; a fault in a thread ends the process, and then `main` does not return. -/
def main (w : World) : Except Fault MainRun :=
  match w.image with
  | none =>
    .ok { status := 1, threads := [], encodes := [],
          console := [Out.text "❌ Error: Could not load input.jpg\n"] }
  | some tdata => do
    let g ← apply_grayscale w.gray tdata
    let i ← apply_invert w.invert tdata
    let b ← apply_blur w.blur tdata
    .ok
      { status := 0
        threads := ["apply_grayscale", "apply_invert", "apply_blur"]
        encodes := [g.encode, i.encode, b.encode]
        console :=
          [Out.text ("Loaded image: " ++ toString tdata.width ++ " x " ++ toString tdata.height
            ++ " (" ++ toString tdata.channels ++ " channels)\n")]
          ++ g.console ++ i.console ++ b.console ++
          [Out.text "\n=========================================\n",
           Out.text "🎯 All filters completed successfully!\n",
           Out.seconds "🕒 Total elapsed time:"
             ((w.total_end - w.total_start : Int) / (CLOCKS_PER_SEC : Int)),
           Out.cpu w.utime w.stime,
           Out.text "=========================================\n"] }

/-! ## Vocabulary of the statements -/

/-- The sample at index `k` of a buffer, as an `int` (0 outside the buffer). -/
def peek (buf : List Byte) (k : Int) : Int :=
  ((buf.getD k.toNat 0).val : Int)

/-- The byte `apply_grayscale` computes for the pixel starting at sample `i`. -/
def grayAt (data : List Byte) (i : Int) : Byte :=
  toByte ((peek data i + peek data (i + 1) + peek data (i + 2)).tdiv 3)

/-- Buffer `buf` agrees with `init` except on the first three samples of the pixels
in `done`, where sample `j` of pixel `q` holds `f q j`.  Pixels are numbered
`0 ≤ q < n`, each made of `c` samples. -/
def Painted (c n : Int) (done : Int → Prop) (f : Int → Int → Int) (init buf : List Byte) :
    Prop :=
  buf.length = init.length ∧
    ∀ q j, 0 ≤ q → q < n → 0 ≤ j → j < c →
      (done q ∧ j < 3 → peek buf (q * c + j) = f q j) ∧
      (¬ (done q ∧ j < 3) → peek buf (q * c + j) = peek init (q * c + j))

/-- The input of a second filter pass: the buffer and shape of an encode call. -/
def EncodeCall.toThreadData (c : EncodeCall) : ThreadData :=
  { data := c.pixels, width := c.width, height := c.height, channels := c.channels }

/-- Sum of sample `j` over the three pixels `q + ky * width + kx`, `kx = -1, 0, 1`. -/
def tapRow (t : ThreadData) (q j ky : Int) : Int :=
  peek t.data ((q + ky * t.width + -1) * t.channels + j)
    + peek t.data ((q + ky * t.width + 0) * t.channels + j)
    + peek t.data ((q + ky * t.width + 1) * t.channels + j)

/-- Sum of sample `j` over the 3×3 window centred at pixel number `q`. -/
def windowSum (t : ThreadData) (q j : Int) : Int :=
  tapRow t q j (-1) + tapRow t q j 0 + tapRow t q j 1

/-- Pixel number `q` is an interior pixel: not in the first or last row or column. -/
def Interior (t : ThreadData) (q : Int) : Prop :=
  ∃ y x, 1 ≤ y ∧ y < t.height - 1 ∧ 1 ≤ x ∧ x < t.width - 1 ∧ q = y * t.width + x

/-- The first `k` iterations of `for (i = i0; i < hi; i += step) body`: the loop
variable and the state after them, or after all the iterations when the loop ends
before.  A fault in an iteration is the fault of the prefix. -/
def forPrefix {σ : Type} (hi step : Int) (body : Int → σ → Except Fault σ) :
    Nat → Int → σ → Except Fault (Int × σ)
  | 0, i, s => .ok (i, s)
  | k + 1, i, s =>
    if i < hi then
      match body i s with
      | .ok s' => forPrefix hi step body k (i + step) s'
      | .error e => .error e
    else .ok (i, s)

/-- A call `show_progress(task, f)` with everything in range: the fraction in [0, 1],
the bar position `(int)(barWidth * progress)` in [0, 40], the percentage
`(int)(progress * 100)` in [0, 100], and these two are what the call prints. -/
def InRange (task : String) (f : Rat) : Prop :=
  0 ≤ f ∧ f ≤ 1 ∧ ∃ pos pct : Int,
    intOfFloat (floatMul (floatOfInt 40) f) = .ok pos ∧ 0 ≤ pos ∧ pos ≤ 40 ∧
    intOfFloat (floatMul f (floatOfInt 100)) = .ok pct ∧ 0 ≤ pct ∧ pct ≤ 100 ∧
    show_progress task f = .ok (progressLine task pos pct)

/-- Every call of `show_progress` recorded in `out` is in range. -/
def FractionsInRange (out : List Out) : Prop :=
  ∀ task f, Out.progress task f ∈ out → InRange task f

/-- The bar as the specification words it: `pos` cells `=`, then one `>` exactly when
`pos < 40`, then spaces up to 40 cells. -/
def barLayout (pos : Nat) : List Char :=
  List.replicate pos '=' ++ (if pos < 40 then '>' :: List.replicate (39 - pos) ' ' else [])

/-- The line of `show_progress` when the two products are taken exactly, as the
specification reads the clamping of the fraction ("over exact arithmetic"); the casts
and the printing are those of `show_progress`. -/
def show_progress_exact (task : String) (progress : Rat) : Except Fault String := do
  let barWidth : Int := 40
  let pos ← intOfFloat (barWidth * progress)
  let pct ← intOfFloat (progress * 100)
  .ok (progressLine task pos pct)

/-- The number a run of decimal digits denotes; a space or a sign counts as 0. -/
def digitsValue (cs : List Char) : Nat :=
  cs.foldl (fun acc c => 10 * acc + (c.toNat - 48)) 0

/-- The integer a `%3d` field denotes. -/
def fieldValue (cs : List Char) : Int :=
  if '-' ∈ cs then -(digitsValue cs : Int) else digitsValue cs

/-! ## Inputs of the worked examples -/

/-- Environment used in the worked examples: every byte of a fresh block is 7. -/
def sampleEnv : TaskEnv :=
  { heap := fun _ => 7, start := 0, stop := 5, written := 1 }

/-- A world for the worked examples: the decoder result is the argument, the rest is
fixed. -/
def sampleWorld (image : Option ThreadData) : World :=
  { image := image, gray := sampleEnv, invert := sampleEnv, blur := sampleEnv,
    start_time := 0, end_time := 2, total_start := 0, total_end := 3000000,
    utime := 1, stime := 0 }

/-- The 2×2 RGB image with pixels (30,60,90), (0,0,0), (255,255,255), (10,20,30). -/
def image2x2 : ThreadData :=
  { data := [30, 60, 90, 0, 0, 0, 255, 255, 255, 10, 20, 30],
    width := 2, height := 2, channels := 3 }

/-- The 1×2 RGB image with pixels (0,128,255), (1,2,3). -/
def image1x2 : ThreadData :=
  { data := [0, 128, 255, 1, 2, 3], width := 1, height := 2, channels := 3 }

/-- The 1×1 RGB image with pixel (1,2,3). -/
def image1x1 : ThreadData :=
  { data := [1, 2, 3], width := 1, height := 1, channels := 3 }

/-- The 1×1 RGBA image with pixel (10,20,30,40). -/
def rgba1x1 : ThreadData :=
  { data := [10, 20, 30, 40], width := 1, height := 1, channels := 4 }

/-- The 1×1 single-channel image with sample 9. -/
def gray1x1 : ThreadData :=
  { data := [9], width := 1, height := 1, channels := 1 }

/-- The 3×3 RGB image whose samples are all 200. -/
def image3x3 : ThreadData :=
  { data := List.replicate 27 200, width := 3, height := 3, channels := 3 }

/-- The 4×3 RGB image whose samples are all 100. -/
def image4x3 : ThreadData :=
  { data := List.replicate 36 100, width := 4, height := 3, channels := 3 }

/-- The 5×5 RGB image whose sample at index `k` is `k`. -/
def image5x5 : ThreadData :=
  { data := (List.range 75).map fun k => toByte k, width := 5, height := 5, channels := 3 }

/-- The 5×5 RGB image whose samples are all 50. -/
def flat5x5 : ThreadData :=
  { data := List.replicate 75 50, width := 5, height := 5, channels := 3 }

/-- The 3×50 RGB image whose samples are all 5. -/
def image3x50 : ThreadData :=
  { data := List.replicate 450 5, width := 3, height := 50, channels := 3 }

/-- The environment of the worked examples with a failing encoder: `stbi_write_jpg`
returns 0. -/
def failingEnv : TaskEnv :=
  { sampleEnv with written := 0 }

/-- A world in which decoding gives `image` and every encode call fails. -/
def failingWorld (image : Option ThreadData) : World :=
  { sampleWorld image with gray := failingEnv, invert := failingEnv, blur := failingEnv }

/-- The 3×4 RGB image whose samples are all 9. -/
def flat3x4 : ThreadData :=
  { data := List.replicate 36 9, width := 3, height := 4, channels := 3 }

/-- The 1×51 RGB image whose samples are all 8. -/
def image1x51 : ThreadData :=
  { data := List.replicate 153 8, width := 1, height := 51, channels := 3 }

/-- The 1×53 single-channel image whose samples are all 8. -/
def gray1x53 : ThreadData :=
  { data := List.replicate 53 8, width := 1, height := 53, channels := 1 }

/-- The 1×50 RGB image whose samples are all 8. -/
def image1x50 : ThreadData :=
  { data := List.replicate 150 8, width := 1, height := 50, channels := 3 }

/-! ## Memory and loops: basic facts -/

theorem peek_nonneg (buf : List Byte) (k : Int) : 0 ≤ peek buf k := by
  unfold peek; omega

theorem peek_lt (buf : List Byte) (k : Int) : peek buf k < 256 := by
  unfold peek; omega

theorem load_ok (buf : List Byte) (i : Int) (h0 : 0 ≤ i) (h1 : i < buf.length) :
    load buf i = .ok (peek buf i) := by
  simp [load, peek, h0, h1]

theorem load_error (buf : List Byte) (i : Int) (h : i < 0 ∨ (buf.length : Int) ≤ i) :
    load buf i = .error .outOfBounds := by
  have : ¬ (0 ≤ i ∧ i < buf.length) := by omega
  simp [load, this]

theorem store_ok (buf : List Byte) (i : Int) (v : Byte) (h0 : 0 ≤ i) (h1 : i < buf.length) :
    store buf i v = .ok (buf.set i.toNat v) := by
  simp [store, h0, h1]

theorem toByte_val (v : Int) (h0 : 0 ≤ v) (h1 : v < 256) : ((toByte v).val : Int) = v := by
  simp only [toByte]
  omega

theorem peek_set (buf : List Byte) (i k : Int) (v : Byte) (hi : 0 ≤ i) (hk : 0 ≤ k)
    (hlt : i < buf.length) :
    peek (buf.set i.toNat v) k = if k = i then (v.val : Int) else peek buf k := by
  unfold peek
  by_cases hki : k = i
  · subst hki
    have : k.toNat < buf.length := by omega
    simp [List.getD_eq_getElem?_getD, List.getElem?_set, this]
  · have : i.toNat ≠ k.toNat := by omega
    simp [List.getD_eq_getElem?_getD, List.getElem?_set, this, hki]

/-- Content of a buffer after the stores to `i + 2`, `i + 1`, `i`, in that order. -/
theorem peek_set3 (buf : List Byte) (i k : Int) (v0 v1 v2 : Byte) (hi : 0 ≤ i) (hk : 0 ≤ k)
    (hlt : i + 2 < buf.length) :
    peek (((buf.set (i + 2).toNat v2).set (i + 1).toNat v1).set i.toNat v0) k =
      if k = i then (v0.val : Int) else if k = i + 1 then (v1.val : Int)
      else if k = i + 2 then (v2.val : Int) else peek buf k := by
  rw [peek_set _ _ _ _ hi hk (by simp only [List.length_set]; omega)]
  rw [peek_set _ _ _ _ (by omega) hk (by simp only [List.length_set]; omega)]
  rw [peek_set _ _ _ _ (by omega) hk (by omega)]

/-- Content of a buffer after the stores to `i`, `i + 1`, `i + 2`, in that order. -/
theorem peek_set3_up (buf : List Byte) (i k : Int) (v0 v1 v2 : Byte) (hi : 0 ≤ i) (hk : 0 ≤ k)
    (hlt : i + 2 < buf.length) :
    peek (((buf.set i.toNat v0).set (i + 1).toNat v1).set (i + 2).toNat v2) k =
      if k = i then (v0.val : Int) else if k = i + 1 then (v1.val : Int)
      else if k = i + 2 then (v2.val : Int) else peek buf k := by
  rw [peek_set _ _ _ _ (by omega) hk (by simp only [List.length_set]; omega)]
  rw [peek_set _ _ _ _ (by omega) hk (by simp only [List.length_set]; omega)]
  rw [peek_set _ _ _ _ (by omega) hk (by omega)]
  by_cases h0 : k = i
  · have : k ≠ i + 2 := by omega
    have : k ≠ i + 1 := by omega
    simp [*]
  · by_cases h1 : k = i + 1
    · have : k ≠ i + 2 := by omega
      simp [*]
    · simp [*]

theorem peek_malloc (heap : Nat → Byte) (size k : Int) (h0 : 0 ≤ k) (h1 : k < size) :
    peek (malloc heap size) k = ((heap k.toNat).val : Int) := by
  unfold peek malloc
  have : k.toNat < size.toNat := by omega
  simp [List.getD_eq_getElem?_getD, this]

theorem length_malloc (heap : Nat → Byte) (size : Int) :
    (malloc heap size).length = size.toNat := by
  simp [malloc]

theorem length_malloc_eq (heap : Nat → Byte) (size : Int) (data : List Byte)
    (h : (data.length : Int) = size) : (malloc heap size).length = data.length := by
  rw [length_malloc]; omega

/-- Two buffers of the same length with the same samples are equal. -/
theorem ext_peek (a b : List Byte) (hlen : a.length = b.length)
    (h : ∀ k : Int, 0 ≤ k → k < a.length → peek a k = peek b k) : a = b := by
  apply List.ext_getElem hlen
  intro n h1 h2
  have := h n (by omega) (by omega)
  unfold peek at this
  simp only [Int.toNat_ofNat, List.getD_eq_getElem?_getD, List.getElem?_eq_getElem h1,
    List.getElem?_eq_getElem h2, Option.getD_some] at this
  exact Fin.ext (by omega)

/-- Loop rule: an invariant kept by the body holds when the loop ends, and the loop
does end when the stride is positive and the fuel exceeds the distance to the bound. -/
theorem forLoop_inv {σ : Type} (hi step : Int) (body : Int → σ → Except Fault σ)
    (Inv : Int → σ → Prop) (hstep : 0 < step)
    (hbody : ∀ i s, i < hi → Inv i s → ∃ s', body i s = .ok s' ∧ Inv (i + step) s') :
    ∀ (fuel : Nat) (i : Int) (s : σ), Inv i s → (hi - i).toNat < fuel →
      ∃ i' s', forLoop hi step body fuel i s = .ok s' ∧ hi ≤ i' ∧ Inv i' s' := by
  intro fuel
  induction fuel with
  | zero => intro i s _ h; omega
  | succ n ih =>
    intro i s hinv hfuel
    by_cases hlt : i < hi
    · obtain ⟨s', hs', hinv'⟩ := hbody i s hlt hinv
      obtain ⟨i', s'', h1, h2, h3⟩ := ih (i + step) s' hinv' (by omega)
      exact ⟨i', s'', by simp [forLoop, hlt, hs', h1], h2, h3⟩
    · exact ⟨i, s, by simp [forLoop, hlt], by omega, hinv⟩

theorem forLoop_three {σ : Type} (body : Int → σ → Except Fault σ) (s s1 s2 s3 : σ)
    (h1 : body (-1) s = .ok s1) (h2 : body 0 s1 = .ok s2) (h3 : body 1 s2 = .ok s3) :
    forLoop 2 1 body 4 (-1) s = .ok s3 := by
  simp [forLoop, h1, h2, h3]

/-! ## Sample indices -/

/-- Two samples `q * c + j` and `p * c + j'` with offsets below `c` coincide only when
pixel and offset do. -/
theorem sample_index_inj (c q p j j' : Int) (hj0 : 0 ≤ j) (hj : j < c) (hj0' : 0 ≤ j')
    (hj' : j' < c) (h : q * c + j = p * c + j') : q = p ∧ j = j' := by
  have hq : q = p := by
    rcases lt_trichotomy q p with hlt | heq | hgt
    · have : (q + 1) * c ≤ p * c := by
        apply Int.mul_le_mul_of_nonneg_right <;> omega
      have : (q + 1) * c = q * c + c := by ring
      omega
    · exact heq
    · have : (p + 1) * c ≤ q * c := by
        apply Int.mul_le_mul_of_nonneg_right <;> omega
      have : (p + 1) * c = p * c + c := by ring
      omega
  subst hq
  exact ⟨rfl, by omega⟩

/-- Sample `q * c + j` of pixel `q < n` lies inside a buffer of `n * c` samples. -/
theorem sample_index_lt (c n q j : Int) (hq : q < n) (hj : j < c) (hc : 0 < c) :
    q * c + j < n * c := by
  have : (q + 1) * c ≤ n * c := by
    apply Int.mul_le_mul_of_nonneg_right <;> omega
  have : (q + 1) * c = q * c + c := by ring
  omega

theorem sample_index_nonneg (c q j : Int) (hq : 0 ≤ q) (hj : 0 ≤ j) (hc : 0 < c) :
    0 ≤ q * c + j := by
  have : 0 ≤ q * c := Int.mul_nonneg hq (by omega)
  omega

theorem lt_of_mul_lt_mul_pos (c p n : Int) (hc : 0 < c) (h : p * c < n * c) : p < n := by
  by_contra hcon
  have : n * c ≤ p * c := by
    apply Int.mul_le_mul_of_nonneg_right <;> omega
  omega

theorem le_of_mul_le_mul_pos (c p n : Int) (hc : 0 < c) (h : n * c ≤ p * c) : n ≤ p := by
  by_contra hcon
  have := sample_index_lt c n p 0 (by omega) hc hc
  omega

/-- Pixel `(x, y)` with `0 ≤ x < width`, `0 ≤ y < height` has a number in
`[0, width * height)`. -/
theorem pixel_number_bounds (w h x y : Int) (hx0 : 0 ≤ x) (hx : x < w) (hy0 : 0 ≤ y)
    (hy : y < h) : 0 ≤ y * w + x ∧ y * w + x < w * h := by
  constructor
  · exact sample_index_nonneg w y x hy0 hx0 (by omega)
  · have := sample_index_lt w h y x hy hx (by omega)
    have e : h * w = w * h := by ring
    omega

/-! ## The painting invariant -/

theorem Painted.init (c n : Int) (f : Int → Int → Int) (init : List Byte) :
    Painted c n (fun _ => False) f init init :=
  ⟨rfl, fun _ _ _ _ _ _ => ⟨fun h => h.1.elim, fun _ => rfl⟩⟩

theorem Painted.congr {c n : Int} {done done' : Int → Prop} {f : Int → Int → Int}
    {init buf : List Byte} (h : Painted c n done f init buf)
    (hd : ∀ q, 0 ≤ q → q < n → (done q ↔ done' q)) : Painted c n done' f init buf := by
  refine ⟨h.1, fun q j hq0 hqn hj0 hjc => ?_⟩
  have := h.2 q j hq0 hqn hj0 hjc
  rw [hd q hq0 hqn] at this
  exact this

/-- Writing the three colour samples of pixel `p` extends the painted set by `p`. -/
theorem Painted.step {c n : Int} {done : Int → Prop} {f : Int → Int → Int}
    {init buf : List Byte} (hc : 3 ≤ c) (h : Painted c n done f init buf)
    (p : Int) (hp0 : 0 ≤ p) (buf' : List Byte)
    (hlen' : buf'.length = buf.length)
    (hbuf' : ∀ k, 0 ≤ k → peek buf' k =
      if k = p * c then f p 0 else if k = p * c + 1 then f p 1
      else if k = p * c + 2 then f p 2 else peek buf k) :
    Painted c n (fun q => done q ∨ q = p) f init buf' := by
  refine ⟨by rw [hlen', h.1], fun q j hq0 hqn hj0 hjc => ?_⟩
  have key := hbuf' (q * c + j) (sample_index_nonneg c q j hq0 hj0 (by omega))
  have ih := h.2 q j hq0 hqn hj0 hjc
  by_cases hqp : q = p
  · subst hqp
    by_cases hj3 : j < 3
    · have hj : j = 0 ∨ j = 1 ∨ j = 2 := by omega
      refine ⟨fun _ => ?_, fun hn => absurd ⟨Or.inr rfl, hj3⟩ hn⟩
      rcases hj with rfl | rfl | rfl
      · rw [key]; simp
      · rw [key]; simp
      · rw [key]; simp
    · have e0 : q * c + j ≠ q * c := by omega
      have e1 : q * c + j ≠ q * c + 1 := by omega
      have e2 : q * c + j ≠ q * c + 2 := by omega
      rw [if_neg e0, if_neg e1, if_neg e2] at key
      refine ⟨fun hh => absurd hh.2 hj3, fun _ => ?_⟩
      rw [key]
      exact ih.2 (fun hh => hj3 hh.2)
  · have e0 : q * c + j ≠ p * c := fun e =>
      hqp (sample_index_inj c q p j 0 hj0 hjc (by omega) (by omega) (by omega)).1
    have e1 : q * c + j ≠ p * c + 1 := fun e =>
      hqp (sample_index_inj c q p j 1 hj0 hjc (by omega) (by omega) e).1
    have e2 : q * c + j ≠ p * c + 2 := fun e =>
      hqp (sample_index_inj c q p j 2 hj0 hjc (by omega) (by omega) e).1
    rw [if_neg e0, if_neg e1, if_neg e2] at key
    rw [key]
    refine ⟨fun hh => ih.1 ⟨hh.1.resolve_right hqp, hh.2⟩, fun hn => ih.2 (fun hh => hn ⟨Or.inl hh.1, hh.2⟩)⟩

/-- A sample the painted set leaves alone still holds what the allocator left. -/
theorem Painted.untouched {c n : Int} {done : Int → Prop} {f : Int → Int → Int}
    {heap : Nat → Byte} {size : Int} {buf : List Byte}
    (h : Painted c n done f (malloc heap size) buf) (hsize : size = n * c) (hc : 0 < c)
    (q j : Int) (hq0 : 0 ≤ q) (hqn : q < n) (hj0 : 0 ≤ j) (hjc : j < c)
    (hnot : ¬ (done q ∧ j < 3)) :
    load buf (q * c + j) = .ok (((heap (q * c + j).toNat).val : Nat) : Int) := by
  have b0 := sample_index_nonneg c q j hq0 hj0 hc
  have b1 := sample_index_lt c n q j hqn hjc hc
  have hl : (buf.length : Int) = size := by
    rw [h.1, length_malloc]; omega
  rw [load_ok _ _ b0 (by omega), (h.2 q j hq0 hqn hj0 hjc).2 hnot,
    peek_malloc _ _ _ b0 (by omega)]

/-- A painted sample holds the painted value. -/
theorem Painted.painted {c n : Int} {done : Int → Prop} {f : Int → Int → Int}
    {init buf : List Byte} (h : Painted c n done f init buf)
    (hsize : (init.length : Int) = n * c) (hc : 0 < c)
    (q j : Int) (hq0 : 0 ≤ q) (hqn : q < n) (hj0 : 0 ≤ j) (hjc : j < c)
    (hd : done q) (hj3 : j < 3) : load buf (q * c + j) = .ok (f q j) := by
  have b0 := sample_index_nonneg c q j hq0 hj0 hc
  have b1 := sample_index_lt c n q j hqn hjc hc
  have hl : (buf.length : Int) = n * c := by rw [h.1, hsize]
  rw [load_ok _ _ b0 (by omega), (h.2 q j hq0 hqn hj0 hjc).1 ⟨hd, hj3⟩]

/-! ## Grayscale -/

theorem grayAt_val (data : List Byte) (i : Int) :
    ((grayAt data i).val : Int) = (peek data i + peek data (i + 1) + peek data (i + 2)) / 3 := by
  have h1 := peek_nonneg data i
  have h2 := peek_nonneg data (i + 1)
  have h3 := peek_nonneg data (i + 2)
  have h4 := peek_lt data i
  have h5 := peek_lt data (i + 1)
  have h6 := peek_lt data (i + 2)
  unfold grayAt
  rw [Int.tdiv_eq_ediv (by omega) (by omega)]
  apply toByte_val <;> omega

/-- The cadence divisor of grayscale and invert is non-zero while pixels remain. -/
theorem cadence_ne_zero (t : ThreadData) (hc : 3 ≤ t.channels) (i : Int) (h0 : 0 ≤ i)
    (hlt : i < t.width * t.height * t.channels) : t.width * t.channels * 50 ≠ 0 := by
  intro hz
  have hw0 : t.width = 0 := by
    rcases Int.mul_eq_zero.mp hz with h | h
    · rcases Int.mul_eq_zero.mp h with h | h
      · exact h
      · omega
    · omega
  rw [hw0] at hlt
  simp at hlt
  omega

theorem grayscaleBody_ok (t : ThreadData) (i : Int) (s : List Byte × List Out) (h0 : 0 ≤ i)
    (h2 : i + 2 < t.data.length) (hs : s.1.length = t.data.length)
    (hw : t.width * t.channels * 50 ≠ 0) :
    grayscaleBody t i s = .ok
      (((s.1.set (i + 2).toNat (grayAt t.data i)).set (i + 1).toNat (grayAt t.data i)).set
          i.toNat (grayAt t.data i),
        if i.tmod (t.width * t.channels * 50) = 0 then
          s.2 ++ [Out.progress "Grayscale"
            (floatDiv (floatOfInt i) (floatOfInt (t.width * t.height * t.channels)))]
        else s.2) := by
  unfold grayscaleBody
  rw [load_ok _ _ h0 (by omega), load_ok _ _ (by omega) (by omega),
    load_ok _ _ (by omega) (by omega)]
  simp only [bind, Except.bind]
  rw [store_ok _ _ _ (by omega) (by omega)]
  simp only []
  rw [store_ok _ _ _ (by omega) (by simp only [List.length_set]; omega)]
  simp only []
  rw [store_ok _ _ _ (by omega) (by simp only [List.length_set]; omega)]
  simp only [hw, if_false]
  split <;> rfl

/-- The pixel loop of `apply_grayscale` ends and paints every pixel with its gray. -/
theorem grayscale_loop (t : ThreadData) (hc : 3 ≤ t.channels)
    (hlen : (t.data.length : Int) = t.width * t.height * t.channels)
    (init : List Byte) (hinit : init.length = t.data.length) (out0 : List Out) :
    ∃ s, forLoop (t.width * t.height * t.channels) t.channels (grayscaleBody t)
        ((t.width * t.height * t.channels).toNat + 1) 0 (init, out0) = .ok s ∧
      Painted t.channels (t.width * t.height) (fun _ => True)
        (fun q _ => ((grayAt t.data (q * t.channels)).val : Int)) init s.1 := by
  have hinv := forLoop_inv (t.width * t.height * t.channels) t.channels (grayscaleBody t)
    (fun i s => ∃ p, i = p * t.channels ∧ 0 ≤ p ∧
      Painted t.channels (t.width * t.height) (fun q => q < p)
        (fun q _ => ((grayAt t.data (q * t.channels)).val : Int)) init s.1)
    (by omega)
    (by
      rintro i s hlt ⟨p, rfl, hp0, hp⟩
      have hpn : p < t.width * t.height := lt_of_mul_lt_mul_pos _ _ _ (by omega) hlt
      have h2 := sample_index_lt t.channels _ p 2 hpn (by omega) (by omega)
      have h0 := sample_index_nonneg t.channels p 0 hp0 (by omega) (by omega)
      have hw : t.width * t.channels * 50 ≠ 0 := by
        intro hz
        have hw0 : t.width = 0 := by
          rcases Int.mul_eq_zero.mp hz with h | h
          · rcases Int.mul_eq_zero.mp h with h | h
            · exact h
            · omega
          · omega
        rw [hw0] at hlt
        simp at hlt
        omega
      have hs : s.1.length = t.data.length := by rw [hp.1, hinit]
      refine ⟨_, grayscaleBody_ok t _ s (by omega) (by omega) hs hw, p + 1, by ring, by omega, ?_⟩
      refine (Painted.step hc hp p hp0 _ (by simp only [List.length_set]) ?_).congr
        (fun q _ _ => by constructor <;> intro h <;> omega)
      intro k hk
      exact peek_set3 _ _ _ _ _ _ (by omega) hk (by omega))
    ((t.width * t.height * t.channels).toNat + 1) 0 (init, out0)
    ⟨0, by ring, le_refl _, (Painted.init _ _ _ init).congr (fun q hq _ => by
      constructor
      · intro h; exact h.elim
      · intro h; omega)⟩
    (by omega)
  obtain ⟨i', s', hrun, hge, p, rfl, hp0, hp⟩ := hinv
  refine ⟨s', hrun, hp.congr (fun q _ hq => ?_)⟩
  have := le_of_mul_le_mul_pos _ _ _ (by omega) hge
  constructor
  · intro _; trivial
  · intro _; omega

/-- What `apply_grayscale` does on an image with at least three channels. -/
theorem apply_grayscale_spec (e : TaskEnv) (t : ThreadData) (hc : 3 ≤ t.channels)
    (hlen : (t.data.length : Int) = t.width * t.height * t.channels) :
    ∃ run, apply_grayscale e t = .ok run ∧
      run.encode.width = t.width ∧ run.encode.height = t.height ∧
      run.encode.channels = t.channels ∧
      Painted t.channels (t.width * t.height) (fun _ => True)
        (fun q _ => ((grayAt t.data (q * t.channels)).val : Int))
        (malloc e.heap (t.width * t.height * t.channels)) run.encode.pixels := by
  obtain ⟨s, hs, hp⟩ := grayscale_loop t hc hlen (malloc e.heap (t.width * t.height * t.channels))
    (length_malloc_eq _ _ _ hlen) []
  exact ⟨_, by simp only [apply_grayscale, hs, bind, Except.bind]; rfl, rfl, rfl, rfl, hp⟩

/-- C1. Grayscale: on an image with at least three channels whose buffer has
`width * height * channels` samples, `apply_grayscale` reaches its encode call, and
for every pixel `p` the encoded buffer holds, at the R, G and B positions of `p`, the
value `floor((inR + inG + inB) / 3)` of the input pixel, not reduced by the byte store. -/
theorem grayscale_pixels (e : TaskEnv) (t : ThreadData) (hc : 3 ≤ t.channels)
    (hlen : (t.data.length : Int) = t.width * t.height * t.channels) :
    ∃ run, apply_grayscale e t = .ok run ∧
      ∀ p, 0 ≤ p → p < t.width * t.height →
        ∃ r g b, load t.data (p * t.channels) = .ok r ∧
          load t.data (p * t.channels + 1) = .ok g ∧
          load t.data (p * t.channels + 2) = .ok b ∧
          load run.encode.pixels (p * t.channels) = .ok ((r + g + b) / 3) ∧
          load run.encode.pixels (p * t.channels + 1) = .ok ((r + g + b) / 3) ∧
          load run.encode.pixels (p * t.channels + 2) = .ok ((r + g + b) / 3) := by
  obtain ⟨s, hs, hp⟩ := grayscale_loop t hc hlen (malloc e.heap (t.width * t.height * t.channels))
    (length_malloc_eq _ _ _ hlen) []
  refine ⟨_, by simp only [apply_grayscale, hs, bind, Except.bind]; rfl, ?_⟩
  intro p hp0 hpn
  have hlen' : (s.1.length : Int) = t.width * t.height * t.channels := by
    rw [hp.1, length_malloc_eq _ _ _ hlen, hlen]
  have h2 := sample_index_lt t.channels _ p 2 hpn (by omega) (by omega)
  have h0 := sample_index_nonneg t.channels p 0 hp0 (by omega) (by omega)
  have e0 := (hp.2 p 0 hp0 hpn (by omega) (by omega)).1 ⟨trivial, by omega⟩
  have e1 := (hp.2 p 1 hp0 hpn (by omega) (by omega)).1 ⟨trivial, by omega⟩
  have e2 := (hp.2 p 2 hp0 hpn (by omega) (by omega)).1 ⟨trivial, by omega⟩
  simp only [add_zero] at e0 e1 e2
  dsimp only [stbi_write_jpg]
  refine ⟨_, _, _, load_ok _ _ (by omega) (by omega), load_ok _ _ (by omega) (by omega),
    load_ok _ _ (by omega) (by omega), ?_, ?_, ?_⟩
  · rw [load_ok _ _ (by omega) (by omega), e0, grayAt_val]
  · rw [load_ok _ _ (by omega) (by omega), e1, grayAt_val]
  · rw [load_ok _ _ (by omega) (by omega), e2, grayAt_val]

/-- C1, worked example: the 2×2 image of the specification is encoded as
(60,60,60), (0,0,0), (255,255,255), (20,20,20), and the general statement applies. -/
theorem grayscale_pixels_witness :
    ((apply_grayscale sampleEnv image2x2).toOption.map fun run => run.encode.pixels)
        = some [60, 60, 60, 0, 0, 0, 255, 255, 255, 20, 20, 20] ∧
      (3 ≤ image2x2.channels ∧
        (image2x2.data.length : Int) = image2x2.width * image2x2.height * image2x2.channels) ∧
      ∃ run, apply_grayscale sampleEnv image2x2 = .ok run ∧
        ∀ p, 0 ≤ p → p < image2x2.width * image2x2.height →
          ∃ r g b, load image2x2.data (p * image2x2.channels) = .ok r ∧
            load image2x2.data (p * image2x2.channels + 1) = .ok g ∧
            load image2x2.data (p * image2x2.channels + 2) = .ok b ∧
            load run.encode.pixels (p * image2x2.channels) = .ok ((r + g + b) / 3) ∧
            load run.encode.pixels (p * image2x2.channels + 1) = .ok ((r + g + b) / 3) ∧
            load run.encode.pixels (p * image2x2.channels + 2) = .ok ((r + g + b) / 3) :=
  ⟨by decide, ⟨by decide, by decide⟩, grayscale_pixels sampleEnv image2x2 (by decide) (by decide)⟩

/-! ## Invert -/

theorem invertSample_val (x : Int) (h0 : 0 ≤ x) (h1 : x < 256) :
    ((invertSample x).val : Int) = 255 - x := by
  unfold invertSample
  apply toByte_val <;> omega

theorem invertBody_ok (t : ThreadData) (i : Int) (s : List Byte × List Out) (h0 : 0 ≤ i)
    (h2 : i + 2 < t.data.length) (hs : s.1.length = t.data.length)
    (hw : t.width * t.channels * 50 ≠ 0) :
    invertBody t i s = .ok
      (((s.1.set i.toNat (invertSample (peek t.data i))).set (i + 1).toNat
          (invertSample (peek t.data (i + 1)))).set (i + 2).toNat
          (invertSample (peek t.data (i + 2))),
        if i.tmod (t.width * t.channels * 50) = 0 then
          s.2 ++ [Out.progress "Invert   "
            (floatDiv (floatOfInt i) (floatOfInt (t.width * t.height * t.channels)))]
        else s.2) := by
  unfold invertBody
  rw [load_ok _ _ h0 (by omega), load_ok _ _ (by omega) (by omega),
    load_ok _ _ (by omega) (by omega)]
  simp only [bind, Except.bind]
  rw [store_ok _ _ _ (by omega) (by omega)]
  simp only []
  rw [store_ok _ _ _ (by omega) (by simp only [List.length_set]; omega)]
  simp only []
  rw [store_ok _ _ _ (by omega) (by simp only [List.length_set]; omega)]
  simp only [hw, if_false]
  split <;> rfl

/-- The pixel loop of `apply_invert` ends and paints every pixel with its inverse. -/
theorem invert_loop (t : ThreadData) (hc : 3 ≤ t.channels)
    (hlen : (t.data.length : Int) = t.width * t.height * t.channels)
    (init : List Byte) (hinit : init.length = t.data.length) (out0 : List Out) :
    ∃ s, forLoop (t.width * t.height * t.channels) t.channels (invertBody t)
        ((t.width * t.height * t.channels).toNat + 1) 0 (init, out0) = .ok s ∧
      Painted t.channels (t.width * t.height) (fun _ => True)
        (fun q j => 255 - peek t.data (q * t.channels + j)) init s.1 := by
  have hinv := forLoop_inv (t.width * t.height * t.channels) t.channels (invertBody t)
    (fun i s => ∃ p, i = p * t.channels ∧ 0 ≤ p ∧
      Painted t.channels (t.width * t.height) (fun q => q < p)
        (fun q j => 255 - peek t.data (q * t.channels + j)) init s.1)
    (by omega)
    (by
      rintro i s hlt ⟨p, rfl, hp0, hp⟩
      have hpn : p < t.width * t.height := lt_of_mul_lt_mul_pos _ _ _ (by omega) hlt
      have h2 := sample_index_lt t.channels _ p 2 hpn (by omega) (by omega)
      have h0 := sample_index_nonneg t.channels p 0 hp0 (by omega) (by omega)
      have hw := cadence_ne_zero t hc _ (by omega) hlt
      have hs : s.1.length = t.data.length := by rw [hp.1, hinit]
      refine ⟨_, invertBody_ok t _ s (by omega) (by omega) hs hw, p + 1, by ring, by omega, ?_⟩
      refine (Painted.step hc hp p hp0 _ (by simp only [List.length_set]) ?_).congr
        (fun q _ _ => by constructor <;> intro h <;> omega)
      intro k hk
      rw [peek_set3_up _ _ _ _ _ _ (by omega) hk (by omega)]
      rw [invertSample_val _ (peek_nonneg _ _) (peek_lt _ _),
        invertSample_val _ (peek_nonneg _ _) (peek_lt _ _),
        invertSample_val _ (peek_nonneg _ _) (peek_lt _ _)]
      simp only [add_zero])
    ((t.width * t.height * t.channels).toNat + 1) 0 (init, out0)
    ⟨0, by ring, le_refl _, (Painted.init _ _ _ init).congr (fun q hq _ => by
      constructor
      · intro h; exact h.elim
      · intro h; omega)⟩
    (by omega)
  obtain ⟨i', s', hrun, hge, p, rfl, hp0, hp⟩ := hinv
  refine ⟨s', hrun, hp.congr (fun q _ hq => ?_)⟩
  have := le_of_mul_le_mul_pos _ _ _ (by omega) hge
  constructor
  · intro _; trivial
  · intro _; omega

/-- What `apply_invert` does on an image with at least three channels. -/
theorem apply_invert_spec (e : TaskEnv) (t : ThreadData) (hc : 3 ≤ t.channels)
    (hlen : (t.data.length : Int) = t.width * t.height * t.channels) :
    ∃ run, apply_invert e t = .ok run ∧
      run.encode.width = t.width ∧ run.encode.height = t.height ∧
      run.encode.channels = t.channels ∧
      Painted t.channels (t.width * t.height) (fun _ => True)
        (fun q j => 255 - peek t.data (q * t.channels + j))
        (malloc e.heap (t.width * t.height * t.channels)) run.encode.pixels := by
  obtain ⟨s, hs, hp⟩ := invert_loop t hc hlen (malloc e.heap (t.width * t.height * t.channels))
    (length_malloc_eq _ _ _ hlen) []
  exact ⟨_, by simp only [apply_invert, hs, bind, Except.bind]; rfl, rfl, rfl, rfl, hp⟩

/-- C2. Invert: on an image with at least three channels whose buffer has
`width * height * channels` samples, `apply_invert` reaches its encode call, and for
every pixel `p` and each of its R, G, B positions the encoded buffer holds 255 minus
the input sample at that position. -/
theorem invert_pixels (e : TaskEnv) (t : ThreadData) (hc : 3 ≤ t.channels)
    (hlen : (t.data.length : Int) = t.width * t.height * t.channels) :
    ∃ run, apply_invert e t = .ok run ∧
      ∀ p j, 0 ≤ p → p < t.width * t.height → 0 ≤ j → j < 3 →
        ∃ v, load t.data (p * t.channels + j) = .ok v ∧
          load run.encode.pixels (p * t.channels + j) = .ok (255 - v) := by
  obtain ⟨s, hs, hp⟩ := invert_loop t hc hlen (malloc e.heap (t.width * t.height * t.channels))
    (length_malloc_eq _ _ _ hlen) []
  refine ⟨_, by simp only [apply_invert, hs, bind, Except.bind]; rfl, ?_⟩
  intro p j hp0 hpn hj0 hj3
  have hlen' : (s.1.length : Int) = t.width * t.height * t.channels := by
    rw [hp.1, length_malloc_eq _ _ _ hlen, hlen]
  have h2 := sample_index_lt t.channels _ p j hpn (by omega) (by omega)
  have h0 := sample_index_nonneg t.channels p j hp0 hj0 (by omega)
  have e0 := (hp.2 p j hp0 hpn hj0 (by omega)).1 ⟨trivial, hj3⟩
  dsimp only [stbi_write_jpg]
  refine ⟨_, load_ok _ _ (by omega) (by omega), ?_⟩
  rw [load_ok _ _ (by omega) (by omega), e0]

/-- C2, worked example: the statement applies to a 1×2 image, whose encoded samples
are (255,127,0), (254,253,252). -/
theorem invert_pixels_witness :
    ((apply_invert sampleEnv image1x2).toOption.map fun run => run.encode.pixels)
        = some [255, 127, 0, 254, 253, 252] ∧
      (3 ≤ image1x2.channels ∧
        (image1x2.data.length : Int) = image1x2.width * image1x2.height * image1x2.channels) ∧
      ∃ run, apply_invert sampleEnv image1x2 = .ok run ∧
        ∀ p j, 0 ≤ p → p < image1x2.width * image1x2.height → 0 ≤ j → j < 3 →
          ∃ v, load image1x2.data (p * image1x2.channels + j) = .ok v ∧
            load run.encode.pixels (p * image1x2.channels + j) = .ok (255 - v) :=
  ⟨by decide, ⟨by decide, by decide⟩, invert_pixels sampleEnv image1x2 (by decide) (by decide)⟩

/-- C8. Invert round trip: inverting a sample twice gives the sample back, for every
sample value in [0, 255]; and on a 3-channel image, running `apply_invert` on the
buffer it encoded gives back the original sample buffer. -/
theorem invert_round_trip (e e' : TaskEnv) (t : ThreadData) (hc : t.channels = 3)
    (hlen : (t.data.length : Int) = t.width * t.height * t.channels) :
    (∀ x : Int, 0 ≤ x → x ≤ 255 → ((invertSample ((invertSample x).val : Int)).val : Int) = x) ∧
    ∃ run run', apply_invert e t = .ok run ∧
      apply_invert e' run.encode.toThreadData = .ok run' ∧
      run'.encode.pixels = t.data := by
  constructor
  · intro x h0 h1
    rw [invertSample_val _ h0 (by omega), invertSample_val _ (by omega) (by omega)]
    omega
  obtain ⟨run, hrun, hw, hh, hch, hp⟩ := apply_invert_spec e t (by omega) hlen
  have hslen : run.encode.pixels.length = t.data.length := by
    rw [hp.1, length_malloc_eq _ _ _ hlen]
  have hlen' : (run.encode.toThreadData.data.length : Int) =
      run.encode.toThreadData.width * run.encode.toThreadData.height *
        run.encode.toThreadData.channels := by
    show (run.encode.pixels.length : Int) =
      run.encode.width * run.encode.height * run.encode.channels
    rw [hslen, hlen, hw, hh, hch]
  obtain ⟨run', hrun', _, _, _, hp'⟩ := apply_invert_spec e' run.encode.toThreadData
    (by show 3 ≤ run.encode.channels; omega) hlen'
  have hslen' : run'.encode.pixels.length = t.data.length := by
    rw [hp'.1, length_malloc_eq _ _ _ hlen']; exact hslen
  refine ⟨run, run', hrun, hrun', ?_⟩
  apply ext_peek _ _ hslen'
  intro k hk0 hklen
  change Painted run.encode.channels (run.encode.width * run.encode.height) (fun _ => True)
    (fun q j => 255 - peek run.encode.pixels (q * run.encode.channels + j)) _ _ at hp'
  rw [hw, hh, hch] at hp'
  have hk : k = (k / 3) * t.channels + k % 3 := by rw [hc]; omega
  have hq : k / 3 < t.width * t.height := by
    have : (k : Int) < t.width * t.height * 3 := by rw [hc] at hlen; omega
    omega
  have h1 := (hp.2 (k / 3) (k % 3) (by omega) hq (by omega) (by omega)).1
    ⟨trivial, by omega⟩
  have h2 := (hp'.2 (k / 3) (k % 3) (by omega) hq (by omega) (by omega)).1
    ⟨trivial, by omega⟩
  simp only [] at h1 h2
  rw [← hk] at h1 h2
  omega

/-- C8, worked example: the round trip on the 1×2 image. -/
theorem invert_round_trip_witness :
    (image1x2.channels = 3 ∧
      (image1x2.data.length : Int) = image1x2.width * image1x2.height * image1x2.channels) ∧
    (∀ x : Int, 0 ≤ x → x ≤ 255 → ((invertSample ((invertSample x).val : Int)).val : Int) = x) ∧
    ∃ run run', apply_invert sampleEnv image1x2 = .ok run ∧
      apply_invert sampleEnv run.encode.toThreadData = .ok run' ∧
      run'.encode.pixels = image1x2.data :=
  ⟨⟨by decide, by decide⟩, invert_round_trip sampleEnv sampleEnv image1x2 (by decide) (by decide)⟩

/-! ## Fourth channel and single channel -/

/-- C5 (as amended). Fourth channel: on a 4-channel image, `apply_grayscale` and
`apply_invert` reach their encode call, and the 4th sample of every pixel of the
encoded buffer is the byte the freshly allocated block held at that index; neither
filter writes it, so it is the input alpha only where the allocator left that value. -/
theorem alpha_is_allocation (e : TaskEnv) (t : ThreadData) (hc : t.channels = 4)
    (hlen : (t.data.length : Int) = t.width * t.height * t.channels) :
    (∃ run, apply_grayscale e t = .ok run ∧
      ∀ p, 0 ≤ p → p < t.width * t.height →
        load run.encode.pixels (p * 4 + 3) = .ok (((e.heap (p * 4 + 3).toNat).val : Nat) : Int)) ∧
    (∃ run, apply_invert e t = .ok run ∧
      ∀ p, 0 ≤ p → p < t.width * t.height →
        load run.encode.pixels (p * 4 + 3)
          = .ok (((e.heap (p * 4 + 3).toNat).val : Nat) : Int)) := by
  constructor
  · obtain ⟨run, hrun, _, _, _, hp⟩ := apply_grayscale_spec e t (by omega) hlen
    refine ⟨run, hrun, fun p hp0 hpn => ?_⟩
    have := hp.untouched rfl (by omega) p 3 hp0 hpn (by omega) (by omega) (fun hh => by omega)
    rwa [hc] at this
  · obtain ⟨run, hrun, _, _, _, hp⟩ := apply_invert_spec e t (by omega) hlen
    refine ⟨run, hrun, fun p hp0 hpn => ?_⟩
    have := hp.untouched rfl (by omega) p 3 hp0 hpn (by omega) (by omega) (fun hh => by omega)
    rwa [hc] at this

/-- C5 (as amended), worked example: the 1×1 RGBA image. -/
theorem alpha_is_allocation_witness :
    (rgba1x1.channels = 4 ∧
      (rgba1x1.data.length : Int) = rgba1x1.width * rgba1x1.height * rgba1x1.channels) ∧
    (∃ run, apply_grayscale sampleEnv rgba1x1 = .ok run ∧
      ∀ p, 0 ≤ p → p < rgba1x1.width * rgba1x1.height →
        load run.encode.pixels (p * 4 + 3)
          = .ok (((sampleEnv.heap (p * 4 + 3).toNat).val : Nat) : Int)) ∧
    (∃ run, apply_invert sampleEnv rgba1x1 = .ok run ∧
      ∀ p, 0 ≤ p → p < rgba1x1.width * rgba1x1.height →
        load run.encode.pixels (p * 4 + 3)
          = .ok (((sampleEnv.heap (p * 4 + 3).toNat).val : Nat) : Int)) :=
  ⟨⟨by decide, by decide⟩, alpha_is_allocation sampleEnv rgba1x1 (by decide) (by decide)⟩

/-- C5, counterexample: on the 1×1 RGBA image with alpha 40 and a fresh block full
of 7, both filters encode alpha 7. -/
theorem alpha_not_passed_through :
    load rgba1x1.data 3 = .ok 40 ∧
    (∃ run, apply_grayscale sampleEnv rgba1x1 = .ok run ∧
      run.encode.pixels = [20, 20, 20, 7] ∧ load run.encode.pixels 3 = .ok 7) ∧
    (∃ run, apply_invert sampleEnv rgba1x1 = .ok run ∧
      run.encode.pixels = [245, 235, 225, 7] ∧ load run.encode.pixels 3 = .ok 7) :=
  ⟨by decide, ⟨_, rfl, by decide, by decide⟩, ⟨_, rfl, by decide, by decide⟩⟩

/-- C6, failing input: on a 1×1 single-channel image, whose buffer has one sample,
the first iteration of grayscale and of invert reads index 1, outside the buffer. -/
theorem single_channel_out_of_bounds :
    ((gray1x1.data.length : Int) = gray1x1.width * gray1x1.height * gray1x1.channels) ∧
    load gray1x1.data (0 + 1) = .error .outOfBounds ∧
    apply_grayscale sampleEnv gray1x1 = .error .outOfBounds ∧
    apply_invert sampleEnv gray1x1 = .error .outOfBounds :=
  ⟨by decide, by decide, by decide, by decide⟩

/-! ## Blur -/

theorem blurTap_ok (t : ThreadData) (x y ky kx : Int) (sum : Sums)
    (h0 : 0 ≤ (y * t.width + x + ky * t.width + kx) * t.channels)
    (h2 : (y * t.width + x + ky * t.width + kx) * t.channels + 2 < t.data.length) :
    blurTap t x y ky kx sum = .ok
      (sum.1 + peek t.data ((y * t.width + x + ky * t.width + kx) * t.channels + 0),
       sum.2.1 + peek t.data ((y * t.width + x + ky * t.width + kx) * t.channels + 1),
       sum.2.2 + peek t.data ((y * t.width + x + ky * t.width + kx) * t.channels + 2)) := by
  unfold blurTap
  have e : ((y + ky) * t.width + (x + kx)) * t.channels
      = (y * t.width + x + ky * t.width + kx) * t.channels := by ring
  simp only [e]
  rw [load_ok _ _ h0 (by omega), load_ok _ _ (by omega) (by omega),
    load_ok _ _ (by omega) (by omega)]
  simp only [bind, Except.bind, add_zero]

/-- Every tap of the window of an interior pixel is read inside the input buffer. -/
theorem tap_bounds (t : ThreadData) (hc : 3 ≤ t.channels)
    (hlen : (t.data.length : Int) = t.width * t.height * t.channels)
    (x y ky kx : Int) (hx1 : 1 ≤ x) (hx : x < t.width - 1) (hy1 : 1 ≤ y)
    (hy : y < t.height - 1) (hky : -1 ≤ ky) (hky' : ky ≤ 1) (hkx : -1 ≤ kx) (hkx' : kx ≤ 1) :
    0 ≤ (y * t.width + x + ky * t.width + kx) * t.channels ∧
      (y * t.width + x + ky * t.width + kx) * t.channels + 2 < t.data.length := by
  have e : y * t.width + x + ky * t.width + kx = (y + ky) * t.width + (x + kx) := by ring
  rw [e]
  obtain ⟨b0, b1⟩ := pixel_number_bounds t.width t.height (x + kx) (y + ky)
    (by omega) (by omega) (by omega) (by omega)
  have := sample_index_nonneg t.channels _ 0 b0 (le_refl 0) (by omega)
  have := sample_index_lt t.channels _ _ 2 b1 (by omega) (by omega)
  omega

theorem blurTapRow_ok (t : ThreadData) (hc : 3 ≤ t.channels)
    (hlen : (t.data.length : Int) = t.width * t.height * t.channels)
    (x y : Int) (hx1 : 1 ≤ x) (hx : x < t.width - 1) (hy1 : 1 ≤ y) (hy : y < t.height - 1)
    (ky : Int) (sum : Sums) (hky : -1 ≤ ky) (hky' : ky ≤ 1) :
    forLoop 2 1 (fun kx sum => blurTap t x y ky kx sum) 4 (-1) sum = .ok
      (sum.1 + tapRow t (y * t.width + x) 0 ky, sum.2.1 + tapRow t (y * t.width + x) 1 ky,
        sum.2.2 + tapRow t (y * t.width + x) 2 ky) := by
  have T : ∀ (kx : Int) (sum : Sums), -1 ≤ kx → kx ≤ 1 →
      blurTap t x y ky kx sum = .ok
        (sum.1 + peek t.data ((y * t.width + x + ky * t.width + kx) * t.channels + 0),
         sum.2.1 + peek t.data ((y * t.width + x + ky * t.width + kx) * t.channels + 1),
         sum.2.2 + peek t.data ((y * t.width + x + ky * t.width + kx) * t.channels + 2)) := by
    intro kx sum c d
    obtain ⟨b0, b2⟩ := tap_bounds t hc hlen x y ky kx hx1 hx hy1 hy hky hky' c d
    exact blurTap_ok t x y ky kx sum b0 b2
  have key := forLoop_three (fun kx sum => blurTap t x y ky kx sum) sum _ _ _
    (T (-1) sum (by omega) (by omega)) (T 0 _ (by omega) (by omega))
    (T 1 _ (by omega) (by omega))
  rw [key]
  simp only [tapRow, add_assoc]

theorem blurWindow_ok (t : ThreadData) (hc : 3 ≤ t.channels)
    (hlen : (t.data.length : Int) = t.width * t.height * t.channels)
    (x y : Int) (hx1 : 1 ≤ x) (hx : x < t.width - 1) (hy1 : 1 ≤ y) (hy : y < t.height - 1) :
    blurWindow t x y = .ok (windowSum t (y * t.width + x) 0, windowSum t (y * t.width + x) 1,
      windowSum t (y * t.width + x) 2) := by
  have R := blurTapRow_ok t hc hlen x y hx1 hx hy1 hy
  have key := forLoop_three
    (fun ky sum => forLoop 2 1 (fun kx sum => blurTap t x y ky kx sum) 4 (-1) sum) (0, 0, 0) _ _ _
    (R (-1) _ (by omega) (by omega)) (R 0 _ (by omega) (by omega))
    (R 1 _ (by omega) (by omega))
  unfold blurWindow
  rw [key]
  simp only [windowSum, zero_add]

theorem tapRow_bounds (t : ThreadData) (q j ky : Int) :
    0 ≤ tapRow t q j ky ∧ tapRow t q j ky ≤ 765 := by
  unfold tapRow
  have a1 := peek_nonneg t.data ((q + ky * t.width + -1) * t.channels + j)
  have a2 := peek_nonneg t.data ((q + ky * t.width + 0) * t.channels + j)
  have a3 := peek_nonneg t.data ((q + ky * t.width + 1) * t.channels + j)
  have b1 := peek_lt t.data ((q + ky * t.width + -1) * t.channels + j)
  have b2 := peek_lt t.data ((q + ky * t.width + 0) * t.channels + j)
  have b3 := peek_lt t.data ((q + ky * t.width + 1) * t.channels + j)
  omega

theorem windowSum_bounds (t : ThreadData) (q j : Int) :
    0 ≤ windowSum t q j ∧ windowSum t q j ≤ 2295 := by
  unfold windowSum
  have a1 := tapRow_bounds t q j (-1)
  have a2 := tapRow_bounds t q j 0
  have a3 := tapRow_bounds t q j 1
  omega

theorem blurByte_val (t : ThreadData) (q j : Int) :
    ((toByte ((windowSum t q j).tdiv 9)).val : Int) = windowSum t q j / 9 := by
  have := windowSum_bounds t q j
  rw [Int.tdiv_eq_ediv (by omega) (by omega)]
  apply toByte_val <;> omega

theorem blurPixel_ok (t : ThreadData) (hc : 3 ≤ t.channels)
    (hlen : (t.data.length : Int) = t.width * t.height * t.channels)
    (x y : Int) (hx1 : 1 ≤ x) (hx : x < t.width - 1) (hy1 : 1 ≤ y) (hy : y < t.height - 1)
    (buf : List Byte) (hbuf : buf.length = t.data.length) :
    blurPixel t y x buf = .ok
      (((buf.set ((y * t.width + x) * t.channels).toNat
            (toByte ((windowSum t (y * t.width + x) 0).tdiv 9))).set
          ((y * t.width + x) * t.channels + 1).toNat
            (toByte ((windowSum t (y * t.width + x) 1).tdiv 9))).set
          ((y * t.width + x) * t.channels + 2).toNat
            (toByte ((windowSum t (y * t.width + x) 2).tdiv 9))) := by
  obtain ⟨b0, b2⟩ := tap_bounds t hc hlen x y 0 0 hx1 hx hy1 hy (by omega) (by omega)
    (by omega) (by omega)
  simp only [zero_mul, add_zero] at b0 b2
  unfold blurPixel
  rw [blurWindow_ok t hc hlen x y hx1 hx hy1 hy]
  simp only [bind, Except.bind]
  rw [store_ok _ _ _ (by omega) (by omega)]
  simp only []
  rw [store_ok _ _ _ (by omega) (by simp only [List.length_set]; omega)]
  simp only []
  rw [store_ok _ _ _ (by omega) (by simp only [List.length_set]; omega)]

/-- The loop over `x` of `apply_blur` on an interior row `y` ends and paints the
interior pixels of that row. -/
theorem blur_row_loop (t : ThreadData) (hc : 3 ≤ t.channels)
    (hlen : (t.data.length : Int) = t.width * t.height * t.channels)
    (y : Int) (hy1 : 1 ≤ y) (hy : y < t.height - 1)
    (done : Int → Prop) (init buf : List Byte) (hinit : init.length = t.data.length)
    (hp : Painted t.channels (t.width * t.height) done
      (fun q j => windowSum t q j / 9) init buf) :
    ∃ buf', forLoop (t.width - 1) 1 (blurPixel t y) (t.width.toNat + 1) 1 buf = .ok buf' ∧
      Painted t.channels (t.width * t.height)
        (fun q => done q ∨ ∃ x, 1 ≤ x ∧ x < t.width - 1 ∧ q = y * t.width + x)
        (fun q j => windowSum t q j / 9) init buf' := by
  have hinv := forLoop_inv (t.width - 1) 1 (blurPixel t y)
    (fun x b => 1 ≤ x ∧ Painted t.channels (t.width * t.height)
        (fun q => done q ∨ ∃ xx, 1 ≤ xx ∧ xx < x ∧ xx < t.width - 1 ∧ q = y * t.width + xx)
        (fun q j => windowSum t q j / 9) init b)
    (by omega)
    (by
      rintro x b hlt ⟨hx1, hb⟩
      have hbl : b.length = t.data.length := by rw [hb.1, hinit]
      obtain ⟨b0, b2⟩ := tap_bounds t hc hlen x y 0 0 hx1 hlt hy1 hy (by omega) (by omega)
        (by omega) (by omega)
      simp only [zero_mul, add_zero] at b0 b2
      obtain ⟨q0, _⟩ := pixel_number_bounds t.width t.height x y (by omega) (by omega)
        (by omega) (by omega)
      refine ⟨_, blurPixel_ok t hc hlen x y hx1 hlt hy1 hy b hbl, by omega, ?_⟩
      refine (Painted.step hc hb (y * t.width + x) q0 _ (by simp only [List.length_set]) ?_).congr
        (fun q _ _ => ?_)
      · intro k hk
        rw [peek_set3_up _ _ _ _ _ _ (by omega) hk (by omega)]
        rw [blurByte_val, blurByte_val, blurByte_val]
      · constructor
        · rintro (⟨hd | ⟨xx, h1, h2, h3, h4⟩⟩ | rfl)
          · exact Or.inl hd
          · exact Or.inr ⟨xx, h1, by omega, h3, h4⟩
          · exact Or.inr ⟨x, hx1, by omega, hlt, rfl⟩
        · rintro (hd | ⟨xx, h1, h2, h3, h4⟩)
          · exact Or.inl (Or.inl hd)
          · by_cases hxx : xx = x
            · subst hxx; exact Or.inr h4
            · exact Or.inl (Or.inr ⟨xx, h1, by omega, h3, h4⟩))
    (t.width.toNat + 1) 1 buf
    ⟨le_refl _, hp.congr (fun q _ _ => by
      constructor
      · intro h; exact Or.inl h
      · rintro (h | ⟨xx, h1, h2, _⟩)
        · exact h
        · omega)⟩
    (by omega)
  obtain ⟨x', buf', hrun, hge, _, hb⟩ := hinv
  refine ⟨buf', hrun, hb.congr (fun q _ _ => ?_)⟩
  constructor
  · rintro (h | ⟨xx, h1, h2, h3, h4⟩)
    · exact Or.inl h
    · exact Or.inr ⟨xx, h1, h3, h4⟩
  · rintro (h | ⟨xx, h1, h3, h4⟩)
    · exact Or.inl h
    · exact Or.inr ⟨xx, h1, by omega, h3, h4⟩

theorem blurRow_ok (t : ThreadData) (y : Int) (s : List Byte × List Out) (buf' : List Byte)
    (hrow : forLoop (t.width - 1) 1 (blurPixel t y) (t.width.toNat + 1) 1 s.1 = .ok buf')
    (hh : 50 ≤ t.height) :
    blurRow t y s = .ok (buf',
      if y.tmod (t.height.tdiv 50) = 0 then
        s.2 ++ [Out.progress "Blur     " (floatDiv (floatOfInt y) (floatOfInt t.height))]
      else s.2) := by
  have hne : t.height.tdiv 50 ≠ 0 := by
    rw [Int.tdiv_eq_ediv (by omega) (by omega)]; omega
  unfold blurRow
  rw [hrow]
  simp only [bind, Except.bind, hne, if_false]
  split <;> rfl

theorem blurRow_fault (t : ThreadData) (y : Int) (s : List Byte × List Out) (buf' : List Byte)
    (hrow : forLoop (t.width - 1) 1 (blurPixel t y) (t.width.toNat + 1) 1 s.1 = .ok buf')
    (hz : t.height.tdiv 50 = 0) : blurRow t y s = .error .divByZero := by
  unfold blurRow
  rw [hrow]
  simp only [bind, Except.bind, hz, if_true]

/-- On every image with at least three channels and a height from 3 to 49, `apply_blur`
stops at the zero divisor of its progress test, after the first interior row. -/
theorem blur_faults_below_50 (e : TaskEnv) (t : ThreadData) (hc : 3 ≤ t.channels)
    (hlen : (t.data.length : Int) = t.width * t.height * t.channels)
    (h3 : 3 ≤ t.height) (h50 : t.height < 50) : apply_blur e t = .error .divByZero := by
  have hz : t.height.tdiv 50 = 0 := by
    rw [Int.tdiv_eq_ediv (by omega) (by omega)]; omega
  obtain ⟨buf', hrow, _⟩ := blur_row_loop t hc hlen 1 (le_refl _) (by omega) (fun _ => False)
    (malloc e.heap (t.width * t.height * t.channels))
    (malloc e.heap (t.width * t.height * t.channels)) (length_malloc_eq _ _ _ hlen)
    (Painted.init _ _ _ _)
  have hlt : (1 : Int) < t.height - 1 := by omega
  have hrow' := blurRow_fault t 1 (malloc e.heap (t.width * t.height * t.channels), []) buf'
    hrow hz
  simp only [apply_blur, forLoop, hlt, if_true, hrow', bind, Except.bind]

/-- The loop over `y` of `apply_blur` ends, when the height is below 3 or at least 50,
and paints exactly the interior pixels. -/
theorem blur_loop (t : ThreadData) (hc : 3 ≤ t.channels)
    (hlen : (t.data.length : Int) = t.width * t.height * t.channels)
    (hh : t.height < 3 ∨ 50 ≤ t.height)
    (init : List Byte) (hinit : init.length = t.data.length) (out0 : List Out) :
    ∃ s, forLoop (t.height - 1) 1 (blurRow t) (t.height.toNat + 1) 1 (init, out0) = .ok s ∧
      Painted t.channels (t.width * t.height) (Interior t)
        (fun q j => windowSum t q j / 9) init s.1 := by
  have hinv := forLoop_inv (t.height - 1) 1 (blurRow t)
    (fun y s => 1 ≤ y ∧ Painted t.channels (t.width * t.height)
        (fun q => ∃ yy x, 1 ≤ yy ∧ yy < y ∧ yy < t.height - 1 ∧ 1 ≤ x ∧ x < t.width - 1 ∧
          q = yy * t.width + x)
        (fun q j => windowSum t q j / 9) init s.1)
    (by omega)
    (by
      rintro y s hlt ⟨hy1, hs⟩
      obtain ⟨buf', hrow, hb⟩ := blur_row_loop t hc hlen y hy1 hlt _ init s.1 hinit hs
      refine ⟨_, blurRow_ok t y s buf' hrow (by omega), by omega, hb.congr (fun q _ _ => ?_)⟩
      constructor
      · rintro (⟨yy, x, h1, h2, h3, h4, h5, h6⟩ | ⟨x, h4, h5, h6⟩)
        · exact ⟨yy, x, h1, by omega, h3, h4, h5, h6⟩
        · exact ⟨y, x, hy1, by omega, hlt, h4, h5, h6⟩
      · rintro ⟨yy, x, h1, h2, h3, h4, h5, h6⟩
        by_cases hyy : yy = y
        · subst hyy; exact Or.inr ⟨x, h4, h5, h6⟩
        · exact Or.inl ⟨yy, x, h1, by omega, h3, h4, h5, h6⟩)
    (t.height.toNat + 1) 1 (init, out0)
    ⟨le_refl _, (Painted.init _ _ _ init).congr (fun q _ _ => by
      constructor
      · intro h; exact h.elim
      · rintro ⟨yy, x, h1, h2, _⟩; omega)⟩
    (by omega)
  obtain ⟨y', s', hrun, hge, _, hb⟩ := hinv
  refine ⟨s', hrun, hb.congr (fun q _ _ => ?_)⟩
  constructor
  · rintro ⟨yy, x, h1, h2, h3, h4, h5, h6⟩
    exact ⟨yy, x, h1, h3, h4, h5, h6⟩
  · rintro ⟨yy, x, h1, h3, h4, h5, h6⟩
    exact ⟨yy, x, h1, by omega, h3, h4, h5, h6⟩

/-- What `apply_blur` does on an image with at least three channels whose height is
below 3 or at least 50. -/
theorem apply_blur_spec (e : TaskEnv) (t : ThreadData) (hc : 3 ≤ t.channels)
    (hlen : (t.data.length : Int) = t.width * t.height * t.channels)
    (hh : t.height < 3 ∨ 50 ≤ t.height) :
    ∃ run, apply_blur e t = .ok run ∧
      run.encode.width = t.width ∧ run.encode.height = t.height ∧
      run.encode.channels = t.channels ∧
      Painted t.channels (t.width * t.height) (Interior t)
        (fun q j => windowSum t q j / 9)
        (malloc e.heap (t.width * t.height * t.channels)) run.encode.pixels := by
  obtain ⟨s, hs, hp⟩ := blur_loop t hc hlen hh (malloc e.heap (t.width * t.height * t.channels))
    (length_malloc_eq _ _ _ hlen) []
  exact ⟨_, by simp only [apply_blur, hs, bind, Except.bind]; rfl, rfl, rfl, rfl, hp⟩

/-- On an image with at least three channels and height at least 50, `apply_blur`
reaches its encode call and every R, G, B sample of every interior pixel is the floor
of a ninth of the sum of the input samples of its 3×3 window. -/
theorem blur_interior_of_tall (e : TaskEnv) (t : ThreadData) (hc : 3 ≤ t.channels)
    (hlen : (t.data.length : Int) = t.width * t.height * t.channels) (hh : 50 ≤ t.height) :
    ∃ run, apply_blur e t = .ok run ∧
      ∀ x y j, 1 ≤ x → x ≤ t.width - 2 → 1 ≤ y → y ≤ t.height - 2 → 0 ≤ j → j < 3 →
        load run.encode.pixels ((y * t.width + x) * t.channels + j)
          = .ok (windowSum t (y * t.width + x) j / 9) := by
  obtain ⟨run, hrun, _, _, _, hp⟩ := apply_blur_spec e t hc hlen (Or.inr hh)
  refine ⟨run, hrun, ?_⟩
  intro x y j hx1 hx hy1 hy hj0 hj3
  obtain ⟨q0, q1⟩ := pixel_number_bounds t.width t.height x y (by omega) (by omega)
    (by omega) (by omega)
  have hm : ((malloc e.heap (t.width * t.height * t.channels)).length : Int)
      = t.width * t.height * t.channels := by
    rw [length_malloc_eq _ _ _ hlen, hlen]
  exact hp.painted hm (by omega) _ j q0 q1 hj0 (by omega)
    ⟨y, x, hy1, by omega, hx1, by omega, rfl⟩ hj3

/-- A pixel of the first or last row or column is not an interior pixel. -/
theorem border_not_interior (t : ThreadData) (x y : Int) (hx0 : 0 ≤ x) (hx : x < t.width)
    (hb : x = 0 ∨ x = t.width - 1 ∨ y = 0 ∨ y = t.height - 1) :
    ¬ Interior t (y * t.width + x) := by
  rintro ⟨yy, xx, h1, h2, h3, h4, h5⟩
  have := sample_index_inj t.width y yy x xx hx0 hx (by omega) (by omega) h5
  omega

theorem image3x50_length :
    (image3x50.data.length : Int) = image3x50.width * image3x50.height * image3x50.channels := by
  rw [show image3x50.data = List.replicate 450 5 from rfl, List.length_replicate]
  decide

/-- C4 (as amended). Blur border: on an image with at least three channels whose
height is below 3 or at least 50, `apply_blur` reaches its encode call, and every
sample of every border pixel (row 0, last row, column 0, last column) of the encoded
buffer is the byte the freshly allocated block held at that index; the loop never
writes it. -/
theorem blur_border_is_allocation (e : TaskEnv) (t : ThreadData) (hc : 3 ≤ t.channels)
    (hlen : (t.data.length : Int) = t.width * t.height * t.channels)
    (hh : t.height < 3 ∨ 50 ≤ t.height) :
    ∃ run, apply_blur e t = .ok run ∧
      ∀ x y j, 0 ≤ x → x < t.width → 0 ≤ y → y < t.height →
        (x = 0 ∨ x = t.width - 1 ∨ y = 0 ∨ y = t.height - 1) → 0 ≤ j → j < t.channels →
        load run.encode.pixels ((y * t.width + x) * t.channels + j)
          = .ok (((e.heap ((y * t.width + x) * t.channels + j).toNat).val : Nat) : Int) := by
  obtain ⟨run, hrun, _, _, _, hp⟩ := apply_blur_spec e t hc hlen hh
  refine ⟨run, hrun, ?_⟩
  intro x y j hx0 hx hy0 hy hb hj0 hjc
  obtain ⟨q0, q1⟩ := pixel_number_bounds t.width t.height x y hx0 hx hy0 hy
  exact hp.untouched rfl (by omega) _ j q0 q1 hj0 hjc
    (fun hh => border_not_interior t x y hx0 hx hb hh.1)

/-- C4 (as amended), worked example: a 3×50 image. -/
theorem blur_border_is_allocation_witness :
    (3 ≤ image3x50.channels ∧
      (image3x50.data.length : Int) = image3x50.width * image3x50.height * image3x50.channels ∧
      (image3x50.height < 3 ∨ 50 ≤ image3x50.height)) ∧
    ∃ run, apply_blur sampleEnv image3x50 = .ok run ∧
      ∀ x y j, 0 ≤ x → x < image3x50.width → 0 ≤ y → y < image3x50.height →
        (x = 0 ∨ x = image3x50.width - 1 ∨ y = 0 ∨ y = image3x50.height - 1) →
        0 ≤ j → j < image3x50.channels →
        load run.encode.pixels ((y * image3x50.width + x) * image3x50.channels + j)
          = .ok (((sampleEnv.heap
              ((y * image3x50.width + x) * image3x50.channels + j).toNat).val : Nat) : Int) :=
  ⟨⟨by decide, image3x50_length, by decide⟩,
    blur_border_is_allocation sampleEnv image3x50 (by decide) image3x50_length (by decide)⟩

/-- C4, counterexample: on the 1×1 image, whose only pixel is a border pixel, with a
fresh block full of 7, blur encodes 7, not 0, at sample 0. -/
theorem blur_border_not_zero :
    ∃ run, apply_blur sampleEnv image1x1 = .ok run ∧
      load run.encode.pixels 0 = .ok 7 ∧ load run.encode.pixels 0 ≠ .ok 0 :=
  ⟨_, rfl, by decide, by decide⟩

/-- C3, failing input: on the 5×5 image the first interior row is computed, then the
progress test `y % (h / 50)` divides by `5 / 50 = 0`; `apply_blur` has no output. -/
theorem blur_5x5_no_output :
    image5x5.height.tdiv 50 = 0 ∧ apply_blur sampleEnv image5x5 = .error .divByZero :=
  ⟨by decide, by decide⟩

/-- C7, failing input: on a 4×3 image grayscale and invert reach their encode call,
and blur stops at the zero divisor `3 / 50` of its progress test. -/
theorem small_image_blur_divides_by_zero :
    (∃ run, apply_grayscale sampleEnv image4x3 = .ok run) ∧
    (∃ run, apply_invert sampleEnv image4x3 = .ok run) ∧
    image4x3.height.tdiv 50 = 0 ∧
    apply_blur sampleEnv image4x3 = .error .divByZero :=
  ⟨⟨_, rfl⟩, ⟨_, rfl⟩, by decide, by decide⟩

/-! ## Shape of the encode calls -/

/-- On an image with at least three channels on which blur completes (height below 3
or at least 50), each filter hands the encoder a buffer of `width * height * channels`
samples together with the width, height and channel count of the input. -/
theorem filters_preserve_shape (e : TaskEnv) (t : ThreadData) (hc : 3 ≤ t.channels)
    (hlen : (t.data.length : Int) = t.width * t.height * t.channels)
    (hh : t.height < 3 ∨ 50 ≤ t.height) :
    ∃ g i b, apply_grayscale e t = .ok g ∧ apply_invert e t = .ok i ∧ apply_blur e t = .ok b ∧
      ∀ call ∈ [g.encode, i.encode, b.encode],
        (call.pixels.length : Int) = t.width * t.height * t.channels ∧
        call.width = t.width ∧ call.height = t.height ∧ call.channels = t.channels := by
  obtain ⟨g, hg, g1, g2, g3, gp⟩ := apply_grayscale_spec e t hc hlen
  obtain ⟨i, hi, i1, i2, i3, ip⟩ := apply_invert_spec e t hc hlen
  obtain ⟨b, hb, b1, b2, b3, bp⟩ := apply_blur_spec e t hc hlen hh
  refine ⟨g, i, b, hg, hi, hb, ?_⟩
  have hm := length_malloc_eq e.heap _ t.data hlen
  intro call hcall
  simp only [List.mem_cons, List.mem_singleton, List.not_mem_nil, or_false] at hcall
  rcases hcall with rfl | rfl | rfl
  · exact ⟨by rw [gp.1, hm, hlen], g1, g2, g3⟩
  · exact ⟨by rw [ip.1, hm, hlen], i1, i2, i3⟩
  · exact ⟨by rw [bp.1, hm, hlen], b1, b2, b3⟩

/-- C9, failing input: on a 3×3 RGB image grayscale and invert hand a 27-sample buffer
with shape 3, 3, 3 to the encoder; blur allocates its 27 samples and stops at the zero
divisor before its encode call, so nothing of that shape reaches the encoder. -/
theorem blur_3x3_no_encode_call :
    (∃ run, apply_grayscale sampleEnv image3x3 = .ok run ∧
      (run.encode.pixels.length, run.encode.width, run.encode.height, run.encode.channels)
        = (27, 3, 3, 3)) ∧
    (∃ run, apply_invert sampleEnv image3x3 = .ok run ∧
      (run.encode.pixels.length, run.encode.width, run.encode.height, run.encode.channels)
        = (27, 3, 3, 3)) ∧
    (malloc sampleEnv.heap (image3x3.width * image3x3.height * image3x3.channels)).length = 27 ∧
    apply_blur sampleEnv image3x3 = .error .divByZero :=
  ⟨⟨_, rfl, by decide⟩, ⟨_, rfl, by decide⟩, by decide, by decide⟩

/-! ## Coordinator -/

/-- When decoding fails `main` returns 1, creates no thread and makes no encode call. -/
theorem main_decode_failure (w : World) (h : w.image = none) :
    main w = .ok { status := 1, threads := [], encodes := [],
                   console := [Out.text "❌ Error: Could not load input.jpg\n"] } := by
  simp only [main, h]

/-- When decoding succeeds on an image with at least three channels on which blur
completes, `main` creates the three threads, each makes its encode call, and `main`
returns 0. -/
theorem main_success (w : World) (t : ThreadData) (h : w.image = some t) (hc : 3 ≤ t.channels)
    (hlen : (t.data.length : Int) = t.width * t.height * t.channels)
    (hh : t.height < 3 ∨ 50 ≤ t.height) :
    ∃ run, main w = .ok run ∧ run.status = 0 ∧
      run.threads = ["apply_grayscale", "apply_invert", "apply_blur"] ∧
      run.encodes.length = 3 := by
  obtain ⟨g, hg, _⟩ := apply_grayscale_spec w.gray t hc hlen
  obtain ⟨i, hi, _⟩ := apply_invert_spec w.invert t hc hlen
  obtain ⟨b, hb, _⟩ := apply_blur_spec w.blur t hc hlen hh
  refine ⟨_, by simp only [main, h, hg, hi, hb, bind, Except.bind]; rfl, ?_, ?_, ?_⟩ <;> rfl

/-- C10, failing input: when the decoder returns a 5×5 RGB image, the blur thread
divides by zero and the process ends there: `main` returns no status, although
decoding succeeded.  When the decoder fails, `main` returns 1 with no thread and no
encode call. -/
theorem main_5x5_does_not_return :
    main (sampleWorld (some flat5x5)) = .error .divByZero ∧
    ((main (sampleWorld none)).toOption.map fun run => (run.status, run.threads, run.encodes))
      = some (1, [], []) :=
  ⟨by decide, by decide⟩

/-! ## Grayscale applied twice -/

/-- C18. Grayscale is idempotent: a pixel whose R, G, B are all `v` gets the gray `v`,
for every `v` in [0, 255]; and on a 3-channel image, running `apply_grayscale` on the
buffer it encoded reaches the encode call with that same buffer. -/
theorem grayscale_idempotent (e e' : TaskEnv) (t : ThreadData) (hc : t.channels = 3)
    (hlen : (t.data.length : Int) = t.width * t.height * t.channels) :
    (∀ v : Int, 0 ≤ v → v ≤ 255 → ((toByte ((v + v + v).tdiv 3)).val : Int) = v) ∧
    ∃ run run', apply_grayscale e t = .ok run ∧
      apply_grayscale e' run.encode.toThreadData = .ok run' ∧
      run'.encode.pixels = run.encode.pixels := by
  constructor
  · intro v h0 h1
    rw [Int.tdiv_eq_ediv (by omega) (by omega), toByte_val _ (by omega) (by omega)]
    omega
  obtain ⟨run, hrun, hw, hh, hch, hp⟩ := apply_grayscale_spec e t (by omega) hlen
  have hslen : run.encode.pixels.length = t.data.length := by
    rw [hp.1, length_malloc_eq _ _ _ hlen]
  have hlen' : (run.encode.toThreadData.data.length : Int) =
      run.encode.toThreadData.width * run.encode.toThreadData.height *
        run.encode.toThreadData.channels := by
    show (run.encode.pixels.length : Int) =
      run.encode.width * run.encode.height * run.encode.channels
    rw [hslen, hlen, hw, hh, hch]
  obtain ⟨run', hrun', _, _, _, hp'⟩ := apply_grayscale_spec e' run.encode.toThreadData
    (by show 3 ≤ run.encode.channels; omega) hlen'
  have hslen' : run'.encode.pixels.length = run.encode.pixels.length := by
    rw [hp'.1, length_malloc_eq _ _ _ hlen']; rfl
  refine ⟨run, run', hrun, hrun', ?_⟩
  apply ext_peek _ _ hslen'
  intro k hk0 hklen
  change Painted run.encode.channels (run.encode.width * run.encode.height) (fun _ => True)
    (fun q _ => ((grayAt run.encode.pixels (q * run.encode.channels)).val : Int)) _ _ at hp'
  rw [hw, hh, hch] at hp'
  rw [hc] at hp hp'
  have hq : k / 3 < t.width * t.height := by
    have : (k : Int) < t.width * t.height * 3 := by
      rw [hc] at hlen; rw [hslen', hslen] at hklen; omega
    omega
  have hk : k = (k / 3) * 3 + k % 3 := by omega
  have g0 := (hp.2 (k / 3) 0 (by omega) hq (by omega) (by omega)).1 ⟨trivial, by omega⟩
  have g1 := (hp.2 (k / 3) 1 (by omega) hq (by omega) (by omega)).1 ⟨trivial, by omega⟩
  have g2 := (hp.2 (k / 3) 2 (by omega) hq (by omega) (by omega)).1 ⟨trivial, by omega⟩
  have gk := (hp.2 (k / 3) (k % 3) (by omega) hq (by omega) (by omega)).1
    ⟨trivial, by omega⟩
  have gk' := (hp'.2 (k / 3) (k % 3) (by omega) hq (by omega) (by omega)).1
    ⟨trivial, by omega⟩
  simp only [add_zero] at g0 g1 g2 gk gk'
  rw [grayAt_val, g0, g1, g2] at gk'
  rw [← hk] at gk gk'
  have b0 := peek_nonneg t.data (k / 3 * 3)
  rw [gk, gk']
  omega

/-- C18, worked example: grayscale twice on the 2×2 image. -/
theorem grayscale_idempotent_witness :
    (image2x2.channels = 3 ∧
      (image2x2.data.length : Int) = image2x2.width * image2x2.height * image2x2.channels) ∧
    (∀ v : Int, 0 ≤ v → v ≤ 255 → ((toByte ((v + v + v).tdiv 3)).val : Int) = v) ∧
    ∃ run run', apply_grayscale sampleEnv image2x2 = .ok run ∧
      apply_grayscale sampleEnv run.encode.toThreadData = .ok run' ∧
      run'.encode.pixels = run.encode.pixels :=
  ⟨⟨by decide, by decide⟩, grayscale_idempotent sampleEnv sampleEnv image2x2 (by decide) (by decide)⟩

/-! ## Truncation and partial runs -/

/-- On a non-negative fraction truncation is the floor. -/
theorem truncate_eq_floor (q : Rat) (h : 0 ≤ q) : truncate q = ⌊q⌋ := by
  rw [Rat.floor_def]
  exact Int.tdiv_eq_ediv (Rat.num_nonneg.mpr h) (by positivity)

theorem truncate_bounds (q : Rat) (k : Int) (h0 : 0 ≤ q) (h1 : q ≤ k) :
    0 ≤ truncate q ∧ truncate q ≤ k := by
  rw [truncate_eq_floor q h0]
  refine ⟨Int.floor_nonneg.mpr h0, ?_⟩
  have := Int.floor_le_floor h1
  rwa [Int.floor_intCast] at this

theorem bind_ok {α β : Type} {x : Except Fault α} {f : α → Except Fault β} {b : β}
    (h : x >>= f = .ok b) : ∃ a, x = .ok a ∧ f a = .ok b := by
  cases x with
  | error e => simp [bind, Except.bind] at h
  | ok a => exact ⟨a, rfl, h⟩

theorem load_bounds (buf : List Byte) (i v : Int) (h : load buf i = .ok v) :
    0 ≤ i ∧ i < buf.length := by
  unfold load at h
  split at h
  · assumption
  · cases h

theorem truncate_neg (q : Rat) : truncate (-q) = -truncate q := by
  unfold truncate
  rw [Rat.neg_num, Rat.neg_den, Int.neg_tdiv]

/-- A fraction strictly between -1 and 1 truncates to 0. -/
theorem truncate_eq_zero (q : Rat) (h0 : -1 < q) (h1 : q < 1) : truncate q = 0 := by
  rcases le_or_lt 0 q with hq | hq
  · rw [truncate_eq_floor q hq, Int.floor_eq_iff]
    exact ⟨by simpa using hq, by simpa using h1⟩
  · have h := truncate_neg (-q)
    rw [neg_neg] at h
    rw [h, truncate_eq_floor (-q) (by linarith), neg_eq_zero, Int.floor_eq_iff]
    exact ⟨by simp only [Int.cast_zero]; linarith, by simp only [Int.cast_zero]; linarith⟩

/-! ## Single-precision arithmetic: rounding -/

theorem roundHalfEven_ge_floor (x : Rat) : ⌊x⌋ ≤ roundHalfEven x := by
  unfold roundHalfEven
  split_ifs <;> omega

theorem roundHalfEven_le_floor_succ (x : Rat) : roundHalfEven x ≤ ⌊x⌋ + 1 := by
  unfold roundHalfEven
  split_ifs <;> omega

theorem roundHalfEven_intCast (k : Int) : roundHalfEven (k : Rat) = k := by
  unfold roundHalfEven
  simp

theorem roundHalfEven_mono {x y : Rat} (h : x ≤ y) : roundHalfEven x ≤ roundHalfEven y := by
  have hf : ⌊x⌋ ≤ ⌊y⌋ := Int.floor_le_floor h
  rcases lt_or_eq_of_le hf with hlt | heq
  · have := roundHalfEven_le_floor_succ x
    have := roundHalfEven_ge_floor y
    omega
  · unfold roundHalfEven
    rw [← heq]
    have hxy : x - ⌊x⌋ ≤ y - ⌊x⌋ := by linarith
    split_ifs <;> first | omega | (exfalso; linarith)

theorem roundHalfEven_eq_of_near (x : Rat) (n : Int) (h : |x - n| < 1 / 2) :
    roundHalfEven x = n := by
  rw [abs_lt] at h
  rcases le_or_lt (n : Rat) x with hn | hn
  · have hfl : ⌊x⌋ = n := by
      rw [Int.floor_eq_iff]; constructor <;> linarith
    unfold roundHalfEven
    rw [hfl, if_pos (by linarith)]
  · have hfl : ⌊x⌋ = n - 1 := by
      rw [Int.floor_eq_iff]; push_cast; constructor <;> linarith
    unfold roundHalfEven
    rw [hfl, if_neg (by push_cast; linarith), if_pos (by push_cast; linarith)]
    omega

theorem roundHalfEven_le_of_le {x : Rat} {k : Int} (h : x ≤ k) : roundHalfEven x ≤ k := by
  have := roundHalfEven_mono h
  rwa [roundHalfEven_intCast] at this

theorem roundHalfEven_ge_of_ge {x : Rat} {k : Int} (h : (k : Rat) ≤ x) : k ≤ roundHalfEven x := by
  have := roundHalfEven_mono h
  rwa [roundHalfEven_intCast] at this

theorem ulp_pos (x : Rat) : (0 : Rat) < 2 ^ ulpExponent x :=
  zpow_pos (by norm_num) _

theorem roundFloat_zero : roundFloat 0 = 0 := by
  unfold roundFloat
  simp [roundHalfEven_intCast, roundHalfEven]

theorem roundFloat_nonneg {x : Rat} (h : 0 ≤ x) : 0 ≤ roundFloat x := by
  unfold roundFloat
  have hq : ((0 : Int) : Rat) ≤ x / 2 ^ ulpExponent x := by
    simpa using div_nonneg h (ulp_pos x).le
  have := roundHalfEven_ge_of_ge hq
  exact mul_nonneg (by exact_mod_cast this) (ulp_pos x).le

/-- A positive value lies below the top of its binade. -/
theorem lt_binade_top {x : Rat} (hx : 0 < x) : x < 2 ^ (ulpExponent x + 24) := by
  have h1 := Int.lt_zpow_succ_log_self (b := 2) (by norm_num) x
  have h2 : ((2 : Nat) : Rat) ^ (Int.log 2 x + 1) ≤ ((2 : Nat) : Rat) ^ (ulpExponent x + 24) := by
    apply zpow_le_zpow_right₀ (by norm_num)
    unfold ulpExponent
    rw [abs_of_pos hx]
    omega
  have h3 := lt_of_lt_of_le h1 h2
  simpa using h3

/-- A positive value that is not subnormal lies above the bottom of its binade. -/
theorem binade_bottom_le {x : Rat} (hx : 0 < x) (hl : -126 ≤ Int.log 2 x) :
    2 ^ (ulpExponent x + 23) ≤ x := by
  have h1 := Int.zpow_log_le_self (b := 2) (by norm_num) hx
  have h2 : ulpExponent x + 23 = Int.log 2 x := by
    unfold ulpExponent
    rw [abs_of_pos hx]
    omega
  rw [h2]
  simpa using h1

theorem roundFloat_le_top {x : Rat} (hx : 0 < x) : roundFloat x ≤ 2 ^ (ulpExponent x + 24) := by
  unfold roundFloat
  have hu := ulp_pos x
  have hq : x / 2 ^ ulpExponent x ≤ (((2 : Int) ^ 24 : Int) : Rat) := by
    rw [div_le_iff₀ hu]
    have := lt_binade_top hx
    rw [zpow_add₀ (by norm_num)] at this
    push_cast
    have e : (2 : Rat) ^ (24 : Int) = 2 ^ 24 := by norm_num
    rw [e] at this
    linarith
  have := roundHalfEven_le_of_le hq
  have h2 : ((roundHalfEven (x / 2 ^ ulpExponent x) : Int) : Rat) ≤ 2 ^ 24 := by
    exact_mod_cast this
  rw [zpow_add₀ (by norm_num)]
  have e : (2 : Rat) ^ (24 : Int) = 2 ^ 24 := by norm_num
  rw [e, mul_comm ((2 : Rat) ^ ulpExponent x)]
  exact mul_le_mul_of_nonneg_right h2 hu.le

theorem roundFloat_ge_bottom {x : Rat} (hx : 0 < x) (hl : -126 ≤ Int.log 2 x) :
    2 ^ (ulpExponent x + 23) ≤ roundFloat x := by
  unfold roundFloat
  have hu := ulp_pos x
  have hq : (((2 : Int) ^ 23 : Int) : Rat) ≤ x / 2 ^ ulpExponent x := by
    rw [le_div_iff₀ hu]
    have := binade_bottom_le hx hl
    rw [zpow_add₀ (by norm_num)] at this
    push_cast
    have e : (2 : Rat) ^ (23 : Int) = 2 ^ 23 := by norm_num
    rw [e] at this
    linarith
  have := roundHalfEven_ge_of_ge hq
  have h2 : (2 : Rat) ^ 23 ≤ ((roundHalfEven (x / 2 ^ ulpExponent x) : Int) : Rat) := by
    exact_mod_cast this
  rw [zpow_add₀ (by norm_num)]
  have e : (2 : Rat) ^ (23 : Int) = 2 ^ 23 := by norm_num
  rw [e, mul_comm ((2 : Rat) ^ ulpExponent x)]
  exact mul_le_mul_of_nonneg_right h2 hu.le

/-- Rounding to `float` is monotone on the non-negative rationals. -/
theorem roundFloat_mono {x y : Rat} (hx : 0 ≤ x) (h : x ≤ y) : roundFloat x ≤ roundFloat y := by
  rcases eq_or_lt_of_le hx with h0 | hpos
  · rw [← h0, roundFloat_zero]
    exact roundFloat_nonneg (hx.trans h)
  have hy : 0 < y := lt_of_lt_of_le hpos h
  have hlog := Int.log_mono_right (b := 2) hpos h
  have hexp : ulpExponent x ≤ ulpExponent y := by
    unfold ulpExponent
    rw [abs_of_pos hpos, abs_of_pos hy]
    omega
  rcases eq_or_lt_of_le hexp with heq | hlt
  · unfold roundFloat
    rw [heq]
    have hu := ulp_pos y
    have : roundHalfEven (x / 2 ^ ulpExponent y) ≤ roundHalfEven (y / 2 ^ ulpExponent y) :=
      roundHalfEven_mono (div_le_div_of_nonneg_right h hu.le)
    exact mul_le_mul_of_nonneg_right (by exact_mod_cast this) hu.le
  · have hl : -126 ≤ Int.log 2 y := by
      unfold ulpExponent at hlt
      rw [abs_of_pos hpos, abs_of_pos hy] at hlt
      omega
    have a := roundFloat_le_top hpos
    have b := roundFloat_ge_bottom hy hl
    have c : (2 : Rat) ^ (ulpExponent x + 24) ≤ 2 ^ (ulpExponent y + 23) :=
      zpow_le_zpow_right₀ (by norm_num) (by omega)
    linarith

/-- Every natural number below 2^24 is a `float`. -/
theorem roundFloat_natCast (n : Nat) (h : n < 2 ^ 24) : roundFloat (n : Rat) = n := by
  rcases Nat.eq_zero_or_pos n with h0 | hpos
  · subst h0; simpa using roundFloat_zero
  have hx : (0 : Rat) < n := by exact_mod_cast hpos
  have hlog : Nat.log 2 n < 24 := Nat.log_lt_of_lt_pow (by omega) h
  have he : ulpExponent (n : Rat) = -((23 - Nat.log 2 n : Nat) : Int) := by
    unfold ulpExponent
    rw [abs_of_pos hx, Int.log_natCast]
    omega
  unfold roundFloat
  rw [he, zpow_neg, zpow_natCast, div_inv_eq_mul]
  have hc : (n : Rat) * 2 ^ (23 - Nat.log 2 n) = (((n * 2 ^ (23 - Nat.log 2 n) : Nat) : Int) : Rat) := by
    push_cast; ring
  rw [hc, roundHalfEven_intCast]
  push_cast
  field_simp

/-- The value of `roundFloat` from the binade and the nearest multiple of the unit in
the last place. -/
theorem roundFloat_eval (x : Rat) (e n : Int) (hx : 0 < x) (he : -126 ≤ e)
    (h1 : (2 : Rat) ^ e ≤ x) (h2 : x < (2 : Rat) ^ (e + 1))
    (hn : |x / 2 ^ (e - 23) - n| < 1 / 2) : roundFloat x = n * 2 ^ (e - 23) := by
  have hlog : Int.log 2 x = e := by
    apply le_antisymm
    · have := (Int.lt_zpow_iff_log_lt (b := 2) (by norm_num) hx (x := e + 1)).mp (by simpa using h2)
      omega
    · exact (Int.zpow_le_iff_le_log (b := 2) (by norm_num) hx).mp (by simpa using h1)
  have hu : ulpExponent x = e - 23 := by
    unfold ulpExponent
    rw [abs_of_pos hx, hlog]
    omega
  unfold roundFloat
  rw [hu, roundHalfEven_eq_of_near _ n hn]

theorem roundHalfEven_neg (x : Rat) : roundHalfEven (-x) = -roundHalfEven x := by
  have h1 := Int.floor_le x
  have h2 := Int.lt_floor_add_one x
  have h3 := Int.floor_le (-x)
  have h4 := Int.lt_floor_add_one (-x)
  have hm : ⌊-x⌋ = -⌊x⌋ ∨ ⌊-x⌋ = -⌊x⌋ - 1 := by
    have a : (⌊-x⌋ : Rat) < -⌊x⌋ + 1 := by linarith
    have b : (-⌊x⌋ - 1 - 1 : Rat) < ⌊-x⌋ := by linarith
    have a' : ⌊-x⌋ < -⌊x⌋ + 1 := by exact_mod_cast a
    have b' : -⌊x⌋ - 1 - 1 < ⌊-x⌋ := by exact_mod_cast b
    omega
  unfold roundHalfEven
  rcases hm with hm | hm <;> rw [hm] at h3 h4 ⊢ <;> push_cast at h3 h4 ⊢ <;>
    split_ifs <;> first | omega | (exfalso; linarith)

theorem ulpExponent_neg (x : Rat) : ulpExponent (-x) = ulpExponent x := by
  unfold ulpExponent
  rw [abs_neg]

/-- Rounding to `float` commutes with the change of sign. -/
theorem roundFloat_neg (x : Rat) : roundFloat (-x) = -roundFloat x := by
  unfold roundFloat
  rw [ulpExponent_neg, neg_div, roundHalfEven_neg]
  push_cast
  ring

/-- Rounding to `float` is monotone. -/
theorem roundFloat_le_roundFloat {x y : Rat} (h : x ≤ y) : roundFloat x ≤ roundFloat y := by
  rcases le_or_lt 0 x with hx | hx
  · exact roundFloat_mono hx h
  · have hx' : roundFloat x ≤ 0 := by
      have := roundFloat_nonneg (x := -x) (by linarith)
      rw [roundFloat_neg] at this
      linarith
    rcases le_or_lt 0 y with hy | hy
    · exact hx'.trans (roundFloat_nonneg hy)
    · have := roundFloat_mono (x := -y) (y := -x) (by linarith) (by linarith)
      rw [roundFloat_neg, roundFloat_neg] at this
      linarith

/-- Every integer of absolute value below 2^24 is a `float`. -/
theorem floatOfInt_eq (k : Int) (h1 : -2 ^ 24 < k) (h2 : k < 2 ^ 24) : floatOfInt k = k := by
  unfold floatOfInt
  rcases le_or_lt 0 k with hk | hk
  · obtain ⟨n, rfl⟩ := Int.eq_ofNat_of_zero_le hk
    have := roundFloat_natCast n (by omega)
    simpa using this
  · obtain ⟨n, hn⟩ := Int.eq_ofNat_of_zero_le (show 0 ≤ -k by omega)
    have := roundFloat_natCast n (by omega)
    have hk' : (k : Rat) = -(n : Rat) := by
      have : k = -(n : Int) := by omega
      rw [this]; push_cast; rfl
    rw [hk', roundFloat_neg, this]

theorem roundFloat_intCast (k : Int) (h1 : -2 ^ 24 < k) (h2 : k < 2 ^ 24) :
    roundFloat (k : Rat) = k :=
  floatOfInt_eq k h1 h2

theorem roundFloat_one : roundFloat 1 = 1 := by
  simpa using roundFloat_intCast 1 (by norm_num) (by norm_num)

/-- Rounding to `float` keeps a value between two small integers between them. -/
theorem roundFloat_between (x : Rat) (a b : Int) (ha : -2 ^ 24 < a) (hb : b < 2 ^ 24)
    (h1 : (a : Rat) ≤ x) (h2 : x ≤ b) : (a : Rat) ≤ roundFloat x ∧ roundFloat x ≤ b := by
  have hab : a ≤ b := by exact_mod_cast h1.trans h2
  constructor
  · have := roundFloat_le_roundFloat h1
    rwa [roundFloat_intCast a ha (by omega)] at this
  · have := roundFloat_le_roundFloat h2
    rwa [roundFloat_intCast b (by omega) hb] at this

/-- The value of `roundFloat` at a tie between two neighbours: the even one. -/
theorem roundFloat_tie (x : Rat) (e n : Int) (hx : 0 < x) (he : -126 ≤ e)
    (h1 : (2 : Rat) ^ e ≤ x) (h2 : x < (2 : Rat) ^ (e + 1))
    (hn : x / 2 ^ (e - 23) = n + 1 / 2) (heven : n % 2 = 0) :
    roundFloat x = n * 2 ^ (e - 23) := by
  have hlog : Int.log 2 x = e := by
    apply le_antisymm
    · have := (Int.lt_zpow_iff_log_lt (b := 2) (by norm_num) hx (x := e + 1)).mp (by simpa using h2)
      omega
    · exact (Int.zpow_le_iff_le_log (b := 2) (by norm_num) hx).mp (by simpa using h1)
  have hu : ulpExponent x = e - 23 := by
    unfold ulpExponent
    rw [abs_of_pos hx, hlog]
    omega
  have hfl : ⌊(n : Rat) + 1 / 2⌋ = n := by
    rw [Int.floor_eq_iff]
    constructor <;> linarith
  unfold roundFloat
  rw [hu, hn]
  unfold roundHalfEven
  rw [hfl, if_neg (by linarith), if_neg (by linarith), if_pos heven]

/-! ## Single-precision arithmetic: the cast to `int` -/

theorem intOfFloat_ok (x : Rat) (h1 : -2147483649 < x) (h2 : x < 2147483648) :
    intOfFloat x = .ok (truncate x) := by
  unfold intOfFloat
  rw [if_pos ⟨h1, h2⟩]

theorem intOfFloat_floor (x : Rat) (h0 : 0 ≤ x) (h2 : x < 2147483648) :
    intOfFloat x = .ok ⌊x⌋ := by
  rw [intOfFloat_ok x (by linarith) h2, truncate_eq_floor x h0]

/-- The cast of a value in a unit interval that starts at a natural number. -/
theorem intOfFloat_eq (x : Rat) (n : Int) (h0 : 0 ≤ n) (hn : n < 2147483648)
    (h1 : (n : Rat) ≤ x) (h2 : x < n + 1) : intOfFloat x = .ok n := by
  have hx : (0 : Rat) ≤ x := le_trans (by exact_mod_cast h0) h1
  have hn' : ((n : Rat) + 1) ≤ 2147483648 := by exact_mod_cast (by omega : n + 1 ≤ 2147483648)
  rw [intOfFloat_floor x hx (by linarith)]
  congr 1
  rw [Int.floor_eq_iff]
  exact ⟨h1, h2⟩

theorem intOfFloat_inv (x : Rat) (n : Int) (h : intOfFloat x = .ok n) : n = truncate x := by
  unfold intOfFloat at h
  split at h
  · cases h; rfl
  · cases h

/-- The cast of a value at least 1 away from 0 is at least 1 away from 0. -/
theorem intOfFloat_ge (x : Rat) (n k : Int) (hk : 0 ≤ k) (h : intOfFloat x = .ok n)
    (hx : (k : Rat) ≤ x) : k ≤ n := by
  rw [intOfFloat_inv x n h, truncate_eq_floor x (le_trans (by exact_mod_cast hk) hx)]
  exact Int.le_floor.mpr hx

theorem intOfFloat_le (x : Rat) (n k : Int) (hk : k ≤ 0) (h : intOfFloat x = .ok n)
    (hx : x ≤ (k : Rat)) : n ≤ k := by
  have hk' : (k : Rat) ≤ 0 := by exact_mod_cast hk
  have e := truncate_neg (-x)
  rw [neg_neg] at e
  rw [intOfFloat_inv x n h, e, truncate_eq_floor (-x) (by linarith)]
  have : -k ≤ ⌊-x⌋ := Int.le_floor.mpr (by push_cast; linarith)
  omega

/-! ## Progress fractions -/

theorem floatOfInt_mono {i n : Int} (h : i ≤ n) : floatOfInt i ≤ floatOfInt n :=
  roundFloat_le_roundFloat (by exact_mod_cast h)

theorem floatOfInt_nonneg (i : Int) (h : 0 ≤ i) : 0 ≤ floatOfInt i :=
  roundFloat_nonneg (by exact_mod_cast h)

theorem floatOfInt_pos (n : Int) (h : 1 ≤ n) : 1 ≤ floatOfInt n := by
  have := floatOfInt_mono h
  rwa [floatOfInt_eq 1 (by norm_num) (by norm_num), Int.cast_one] at this

/-- The `float` quotient of two `float`s `0 ≤ a ≤ b`, `0 < b`, is in [0, 1]. -/
theorem floatDiv_unit (a b : Rat) (h0 : 0 ≤ a) (h1 : a ≤ b) (hb : 0 < b) :
    0 ≤ floatDiv a b ∧ floatDiv a b ≤ 1 := by
  unfold floatDiv
  refine ⟨roundFloat_nonneg (div_nonneg h0 hb.le), ?_⟩
  have := roundFloat_le_roundFloat ((div_le_one hb).mpr h1)
  rwa [roundFloat_one] at this

/-- The fraction `(float)i / n` of the loops, for `0 ≤ i < n`, is in [0, 1]. -/
theorem ratio_in_unit (i n : Int) (h0 : 0 ≤ i) (h1 : i < n) :
    0 ≤ floatDiv (floatOfInt i) (floatOfInt n) ∧ floatDiv (floatOfInt i) (floatOfInt n) ≤ 1 :=
  floatDiv_unit _ _ (floatOfInt_nonneg i h0) (floatOfInt_mono (by omega))
    (lt_of_lt_of_le one_pos (floatOfInt_pos n (by omega)))

/-- The bar position of a fraction in [0, 1]: the cast is defined, it is the floor of
the `float` product, and it is in [0, 40]. -/
theorem bar_position_unit (f : Rat) (h0 : 0 ≤ f) (h1 : f ≤ 1) :
    intOfFloat (floatMul (floatOfInt 40) f) = .ok ⌊floatMul (floatOfInt 40) f⌋ ∧
      0 ≤ ⌊floatMul (floatOfInt 40) f⌋ ∧ ⌊floatMul (floatOfInt 40) f⌋ ≤ 40 := by
  rw [floatOfInt_eq 40 (by norm_num) (by norm_num)]
  unfold floatMul
  push_cast
  have hb := roundFloat_between (((40 : Int) : Rat) * f) 0 40 (by norm_num) (by norm_num)
    (by push_cast; positivity) (by push_cast; linarith)
  push_cast at hb
  refine ⟨intOfFloat_floor _ hb.1 (by linarith), Int.floor_nonneg.mpr hb.1, ?_⟩
  have := Int.floor_le_floor hb.2
  rwa [show ((40 : Rat)) = ((40 : Int) : Rat) by norm_num, Int.floor_intCast] at this

/-- The percentage of a fraction in [0, 1]: the cast is defined, it is the floor of the
`float` product, and it is in [0, 100]. -/
theorem percentage_unit (f : Rat) (h0 : 0 ≤ f) (h1 : f ≤ 1) :
    intOfFloat (floatMul f (floatOfInt 100)) = .ok ⌊floatMul f (floatOfInt 100)⌋ ∧
      0 ≤ ⌊floatMul f (floatOfInt 100)⌋ ∧ ⌊floatMul f (floatOfInt 100)⌋ ≤ 100 := by
  rw [floatOfInt_eq 100 (by norm_num) (by norm_num)]
  unfold floatMul
  push_cast
  have hb := roundFloat_between (f * ((100 : Int) : Rat)) 0 100 (by norm_num) (by norm_num)
    (by push_cast; positivity) (by push_cast; linarith)
  push_cast at hb
  refine ⟨intOfFloat_floor _ hb.1 (by linarith), Int.floor_nonneg.mpr hb.1, ?_⟩
  have := Int.floor_le_floor hb.2
  rwa [show ((100 : Rat)) = ((100 : Int) : Rat) by norm_num, Int.floor_intCast] at this

/-- The line `show_progress` prints for a fraction in [0, 1]. -/
theorem show_progress_unit (task : String) (f : Rat) (h0 : 0 ≤ f) (h1 : f ≤ 1) :
    show_progress task f
      = .ok (progressLine task ⌊floatMul (floatOfInt 40) f⌋ ⌊floatMul f (floatOfInt 100)⌋) := by
  unfold show_progress
  simp only [(bar_position_unit f h0 h1).1, (percentage_unit f h0 h1).1, bind, Except.bind]

theorem inRange_of_unit (task : String) (f : Rat) (h0 : 0 ≤ f) (h1 : f ≤ 1) :
    InRange task f :=
  have a := bar_position_unit f h0 h1
  have b := percentage_unit f h0 h1
  ⟨h0, h1, _, _, a.1, a.2.1, a.2.2, b.1, b.2.1, b.2.2, show_progress_unit task f h0 h1⟩

theorem FractionsInRange.nil : FractionsInRange [] := by
  intro task f h
  simp at h

theorem FractionsInRange.append {out : List Out} (h : FractionsInRange out) (task : String)
    (f : Rat) (h0 : 0 ≤ f) (h1 : f ≤ 1) : FractionsInRange (out ++ [Out.progress task f]) := by
  intro task' f' hmem
  simp only [List.mem_append, List.mem_singleton, Out.progress.injEq] at hmem
  rcases hmem with hmem | ⟨rfl, rfl⟩
  · exact h task' f' hmem
  · exact inRange_of_unit _ _ h0 h1

/-- The end of a filter: the final `show_progress(task, 1.0)`, the check mark and the
timing line keep the calls in range. -/
theorem FractionsInRange.finish {out : List Out} (h : FractionsInRange out)
    (task mark label : String) (v : Rat) :
    FractionsInRange (out ++ [Out.progress task 1, Out.text mark, Out.seconds label v]) := by
  intro task' f' hmem
  simp only [List.mem_append, List.mem_cons, Out.progress.injEq, List.mem_singleton,
    List.not_mem_nil, or_false] at hmem
  rcases hmem with hmem | ⟨rfl, rfl⟩ | hmem | hmem
  · exact h task' f' hmem
  · exact inRange_of_unit _ 1 (by norm_num) (by norm_num)
  · cases hmem
  · cases hmem

/-- Loop rule for the prefixes: an invariant that holds at the start and that the
iterations keep holds after every prefix of the loop. -/
theorem forPrefix_keeps {σ : Type} (hi step : Int) (body : Int → σ → Except Fault σ)
    (Inv : Int → σ → Prop)
    (hbody : ∀ i s s', i < hi → Inv i s → body i s = .ok s' → Inv (i + step) s') :
    ∀ (k : Nat) (i : Int) (s : σ) (i' : Int) (s' : σ), Inv i s →
      forPrefix hi step body k i s = .ok (i', s') → Inv i' s' := by
  intro k
  induction k with
  | zero =>
    intro i s i' s' hinv h
    simp only [forPrefix, Except.ok.injEq, Prod.mk.injEq] at h
    obtain ⟨rfl, rfl⟩ := h
    exact hinv
  | succ n ih =>
    intro i s i' s' hinv h
    unfold forPrefix at h
    split at h
    · rename_i hlt
      split at h
      · rename_i s1 hs1
        exact ih (i + step) s1 i' s' (hbody i s s1 hlt hinv hs1) h
      · cases h
    · simp only [Except.ok.injEq, Prod.mk.injEq] at h
      obtain ⟨rfl, rfl⟩ := h
      exact hinv

/-- The state a loop returns is the state after a prefix of it: the whole loop. -/
theorem forLoop_prefix {σ : Type} (hi step : Int) (body : Int → σ → Except Fault σ) :
    ∀ (fuel : Nat) (i : Int) (s s' : σ), forLoop hi step body fuel i s = .ok s' →
      ∃ i', ¬ i' < hi ∧ forPrefix hi step body fuel i s = .ok (i', s') := by
  intro fuel
  induction fuel with
  | zero => intro i s s' h; simp [forLoop] at h
  | succ n ih =>
    intro i s s' h
    unfold forLoop at h
    unfold forPrefix
    split at h
    · rename_i hlt
      rw [if_pos hlt]
      split at h
      · rename_i s1 hs1
        exact ih (i + step) s1 s' h
      · cases h
    · rename_i hge
      cases h
      rw [if_neg hge]
      exact ⟨i, hge, rfl⟩

theorem grayscaleBody_fractions (t : ThreadData) (i : Int) (s s' : List Byte × List Out)
    (hlt : i < t.width * t.height * t.channels) (h : grayscaleBody t i s = .ok s')
    (hs : FractionsInRange s.2) : FractionsInRange s'.2 := by
  unfold grayscaleBody at h
  obtain ⟨r, hr, h⟩ := bind_ok h
  obtain ⟨g, _, h⟩ := bind_ok h
  obtain ⟨b, _, h⟩ := bind_ok h
  obtain ⟨m1, _, h⟩ := bind_ok h
  obtain ⟨m2, _, h⟩ := bind_ok h
  obtain ⟨m3, _, h⟩ := bind_ok h
  have hi := (load_bounds _ _ _ hr).1
  have hf := ratio_in_unit i (t.width * t.height * t.channels) hi hlt
  dsimp only at h
  split at h
  · cases h
  · split at h
    · cases h
      exact hs.append _ _ hf.1 hf.2
    · cases h
      exact hs

theorem invertBody_fractions (t : ThreadData) (i : Int) (s s' : List Byte × List Out)
    (hlt : i < t.width * t.height * t.channels) (h : invertBody t i s = .ok s')
    (hs : FractionsInRange s.2) : FractionsInRange s'.2 := by
  unfold invertBody at h
  obtain ⟨r, hr, h⟩ := bind_ok h
  obtain ⟨m1, _, h⟩ := bind_ok h
  obtain ⟨g, _, h⟩ := bind_ok h
  obtain ⟨m2, _, h⟩ := bind_ok h
  obtain ⟨b, _, h⟩ := bind_ok h
  obtain ⟨m3, _, h⟩ := bind_ok h
  have hi := (load_bounds _ _ _ hr).1
  have hf := ratio_in_unit i (t.width * t.height * t.channels) hi hlt
  dsimp only at h
  split at h
  · cases h
  · split at h
    · cases h
      exact hs.append _ _ hf.1 hf.2
    · cases h
      exact hs

theorem blurRow_fractions (t : ThreadData) (y : Int) (s s' : List Byte × List Out)
    (hy1 : 1 ≤ y) (hlt : y < t.height - 1) (h : blurRow t y s = .ok s')
    (hs : FractionsInRange s.2) : FractionsInRange s'.2 := by
  unfold blurRow at h
  obtain ⟨m, _, h⟩ := bind_ok h
  have hf := ratio_in_unit y t.height (by omega) (by omega)
  dsimp only at h
  split at h
  · cases h
  · split at h
    · cases h
      exact hs.append _ _ hf.1 hf.2
    · cases h
      exact hs

theorem grayscale_prefix_fractions (e : TaskEnv) (t : ThreadData) (k : Nat) (i : Int)
    (s : List Byte × List Out)
    (h : forPrefix (t.width * t.height * t.channels) t.channels (grayscaleBody t) k 0
      (malloc e.heap (t.width * t.height * t.channels), []) = .ok (i, s)) :
    FractionsInRange s.2 :=
  forPrefix_keeps _ _ _ (fun _ s => FractionsInRange s.2)
    (fun i s s' hlt hi hb => grayscaleBody_fractions t i s s' hlt hb hi) _ _ _ _ _
    FractionsInRange.nil h

theorem invert_prefix_fractions (e : TaskEnv) (t : ThreadData) (k : Nat) (i : Int)
    (s : List Byte × List Out)
    (h : forPrefix (t.width * t.height * t.channels) t.channels (invertBody t) k 0
      (malloc e.heap (t.width * t.height * t.channels), []) = .ok (i, s)) :
    FractionsInRange s.2 :=
  forPrefix_keeps _ _ _ (fun _ s => FractionsInRange s.2)
    (fun i s s' hlt hi hb => invertBody_fractions t i s s' hlt hb hi) _ _ _ _ _
    FractionsInRange.nil h

theorem blur_prefix_fractions (e : TaskEnv) (t : ThreadData) (k : Nat) (y : Int)
    (s : List Byte × List Out)
    (h : forPrefix (t.height - 1) 1 (blurRow t) k 1
      (malloc e.heap (t.width * t.height * t.channels), []) = .ok (y, s)) :
    FractionsInRange s.2 :=
  (forPrefix_keeps _ _ _ (fun y s => 1 ≤ y ∧ FractionsInRange s.2)
    (fun y s s' hlt hi hb => ⟨by omega, blurRow_fractions t y s s' hi.1 hlt hb hi.2⟩) _ _ _ _ _
    ⟨le_refl _, FractionsInRange.nil⟩ h).2

/-- The calls of `show_progress` in the console of a completed filter are in range. -/
theorem completed_run_fractions (e : TaskEnv) (t : ThreadData) (run : FilterRun)
    (h : apply_grayscale e t = .ok run ∨ apply_invert e t = .ok run ∨
      apply_blur e t = .ok run) : FractionsInRange run.console := by
  rcases h with h | h | h
  · unfold apply_grayscale at h
    obtain ⟨s, hs, h⟩ := bind_ok h
    cases h
    obtain ⟨i, _, hp⟩ := forLoop_prefix _ _ _ _ _ _ _ hs
    exact (grayscale_prefix_fractions e t _ i s hp).finish _ _ _ _
  · unfold apply_invert at h
    obtain ⟨s, hs, h⟩ := bind_ok h
    cases h
    obtain ⟨i, _, hp⟩ := forLoop_prefix _ _ _ _ _ _ _ hs
    exact (invert_prefix_fractions e t _ i s hp).finish _ _ _ _
  · unfold apply_blur at h
    obtain ⟨s, hs, h⟩ := bind_ok h
    cases h
    obtain ⟨i, _, hp⟩ := forLoop_prefix _ _ _ _ _ _ _ hs
    exact (blur_prefix_fractions e t _ i s hp).finish _ _ _ _

/-- The fraction passed at sample 150 of 153, and what `show_progress` makes of it. -/
theorem fraction_150_of_153 :
    floatDiv (floatOfInt 150) (floatOfInt 153) = 16448251 / 16777216 ∧
    intOfFloat (floatMul (floatOfInt 40) (16448251 / 16777216)) = .ok 39 ∧
    intOfFloat (floatMul (16448251 / 16777216) (floatOfInt 100)) = .ok 98 := by
  have e1 : roundFloat (150 / 153) = 16448251 / 16777216 := by
    rw [roundFloat_eval _ (-1) 16448251 (by norm_num) (by norm_num) (by norm_num) (by norm_num)
      (by norm_num [abs_lt])]
    norm_num
  have e2 : roundFloat (40 * (16448251 / 16777216)) = 10280157 / 262144 := by
    rw [roundFloat_eval _ 5 10280157 (by norm_num) (by norm_num) (by norm_num) (by norm_num)
      (by norm_num [abs_lt])]
    norm_num
  have e3 : roundFloat (16448251 / 16777216 * 100) = 3212549 / 32768 := by
    rw [roundFloat_eval _ 6 12850196 (by norm_num) (by norm_num) (by norm_num) (by norm_num)
      (by norm_num [abs_lt])]
    norm_num
  rw [floatOfInt_eq 150 (by norm_num) (by norm_num), floatOfInt_eq 153 (by norm_num) (by norm_num),
    floatOfInt_eq 40 (by norm_num) (by norm_num), floatOfInt_eq 100 (by norm_num) (by norm_num)]
  unfold floatDiv floatMul
  push_cast
  rw [e1, e2, e3]
  exact ⟨rfl, intOfFloat_eq _ 39 (by norm_num) (by norm_num) (by norm_num) (by norm_num),
    intOfFloat_eq _ 98 (by norm_num) (by norm_num) (by norm_num) (by norm_num)⟩

/-- The fraction passed at row 1 of 50, and what `show_progress` makes of it. -/
theorem fraction_1_of_50 :
    floatDiv (floatOfInt 1) (floatOfInt 50) = 5368709 / 268435456 ∧
    intOfFloat (floatMul (floatOfInt 40) (5368709 / 268435456)) = .ok 0 ∧
    intOfFloat (floatMul (5368709 / 268435456) (floatOfInt 100)) = .ok 2 := by
  have e1 : roundFloat (1 / 50) = 5368709 / 268435456 := by
    rw [roundFloat_eval _ (-6) 10737418 (by norm_num) (by norm_num) (by norm_num) (by norm_num)
      (by norm_num [abs_lt])]
    norm_num
  have e2 : roundFloat (40 * (5368709 / 268435456)) = 3355443 / 4194304 := by
    rw [roundFloat_tie _ (-1) 13421772 (by norm_num) (by norm_num) (by norm_num) (by norm_num)
      (by norm_num) (by decide)]
    norm_num
  have e3 : roundFloat (5368709 / 268435456 * 100) = 2 := by
    rw [roundFloat_eval _ 0 (2 ^ 24) (by norm_num) (by norm_num) (by norm_num) (by norm_num)
      (by norm_num [abs_lt])]
    norm_num
  rw [floatOfInt_eq 1 (by norm_num) (by norm_num), floatOfInt_eq 50 (by norm_num) (by norm_num),
    floatOfInt_eq 40 (by norm_num) (by norm_num), floatOfInt_eq 100 (by norm_num) (by norm_num)]
  unfold floatDiv floatMul
  push_cast
  rw [e1, e2, e3]
  exact ⟨rfl, intOfFloat_eq _ 0 (by norm_num) (by norm_num) (by norm_num) (by norm_num),
    intOfFloat_eq _ 2 (by norm_num) (by norm_num) (by norm_num) (by norm_num)⟩

/-- The fraction passed at sample 7950 of 15000 is the `float` nearest to 0.53, which
is below 0.53: the line shows 52 percent where the exact quotient has 53. -/
theorem fraction_7950_of_15000 :
    floatDiv (floatOfInt 7950) (floatOfInt 15000) = 2222981 / 4194304 ∧
    intOfFloat (floatMul (floatOfInt 40) (2222981 / 4194304)) = .ok 21 ∧
    intOfFloat (floatMul (2222981 / 4194304) (floatOfInt 100)) = .ok 52 ∧
    ⌊(100 : Rat) * (7950 / 15000)⌋ = 53 := by
  have e1 : roundFloat (7950 / 15000) = 2222981 / 4194304 := by
    rw [roundFloat_eval _ (-1) 8891924 (by norm_num) (by norm_num) (by norm_num) (by norm_num)
      (by norm_num [abs_lt])]
    norm_num
  have e2 : roundFloat (40 * (2222981 / 4194304)) = 11114905 / 524288 := by
    rw [roundFloat_eval _ 4 11114905 (by norm_num) (by norm_num) (by norm_num) (by norm_num)
      (by norm_num [abs_lt])]
    norm_num
  have e3 : roundFloat (2222981 / 4194304 * 100) = 13893631 / 262144 := by
    rw [roundFloat_eval _ 5 13893631 (by norm_num) (by norm_num) (by norm_num) (by norm_num)
      (by norm_num [abs_lt])]
    norm_num
  rw [floatOfInt_eq 7950 (by norm_num) (by norm_num),
    floatOfInt_eq 15000 (by norm_num) (by norm_num),
    floatOfInt_eq 40 (by norm_num) (by norm_num), floatOfInt_eq 100 (by norm_num) (by norm_num)]
  unfold floatDiv floatMul
  push_cast
  rw [e1, e2, e3]
  refine ⟨rfl, intOfFloat_eq _ 21 (by norm_num) (by norm_num) (by norm_num) (by norm_num),
    intOfFloat_eq _ 52 (by norm_num) (by norm_num) (by norm_num) (by norm_num), ?_⟩
  rw [Int.floor_eq_iff]
  norm_num

/-- C16. Progress fractions stay in range, for every image.  A call of `show_progress`
is in range when its fraction is in [0, 1], its bar position in [0, 40] and its
percentage in [0, 100], the two products and the quotient being those of `float`.
(1) The fraction `(float)i / n` is in range whenever `0 ≤ i < n`: this is
`i / (width * height * channels)` under the guard of the pixel loops and `y / height`
for `1 ≤ y < height - 1`.  (2) The final call with 1.0 is in range.  (3), (4), (5) After
any number of iterations of the pixel loop of grayscale, of the pixel loop of invert and
of the row loop of blur, started as the filter starts them, every call made so far is
in range; this covers the calls made before a fault.  (6) Every call in the console of
a filter that completes is in range. -/
theorem progress_fractions_in_range (e : TaskEnv) (t : ThreadData) :
    (∀ (task : String) (i n : Int), 0 ≤ i → i < n →
      InRange task (floatDiv (floatOfInt i) (floatOfInt n))) ∧
    (∀ task : String, InRange task 1) ∧
    (∀ k i s,
      forPrefix (t.width * t.height * t.channels) t.channels (grayscaleBody t) k 0
        (malloc e.heap (t.width * t.height * t.channels), []) = .ok (i, s) →
      FractionsInRange s.2) ∧
    (∀ k i s,
      forPrefix (t.width * t.height * t.channels) t.channels (invertBody t) k 0
        (malloc e.heap (t.width * t.height * t.channels), []) = .ok (i, s) →
      FractionsInRange s.2) ∧
    (∀ k y s,
      forPrefix (t.height - 1) 1 (blurRow t) k 1
        (malloc e.heap (t.width * t.height * t.channels), []) = .ok (y, s) →
      FractionsInRange s.2) ∧
    (∀ run, apply_grayscale e t = .ok run ∨ apply_invert e t = .ok run ∨
        apply_blur e t = .ok run → FractionsInRange run.console) :=
  ⟨fun task i n h0 h1 =>
      inRange_of_unit task _ (ratio_in_unit i n h0 h1).1 (ratio_in_unit i n h0 h1).2,
    fun task => inRange_of_unit task 1 (by norm_num) (by norm_num),
    grayscale_prefix_fractions e t, invert_prefix_fractions e t, blur_prefix_fractions e t,
    completed_run_fractions e t⟩

set_option maxRecDepth 20000 in
/-- Grayscale on the 1×51 image: the 51 iterations of the pixel loop, with the calls of
`show_progress` at samples 0 and 150. -/
theorem grayscale_prefix_1x51 :
    ∃ s, forPrefix (image1x51.width * image1x51.height * image1x51.channels)
        image1x51.channels (grayscaleBody image1x51) 51 0
        (malloc sampleEnv.heap (image1x51.width * image1x51.height * image1x51.channels), [])
          = .ok (153, s) ∧
      s.2 = [Out.progress "Grayscale" (floatDiv (floatOfInt 0) (floatOfInt 153)),
             Out.progress "Grayscale" (floatDiv (floatOfInt 150) (floatOfInt 153))] :=
  ⟨_, rfl, rfl⟩

set_option maxRecDepth 20000 in
/-- Invert on the 1×53 single-channel image: 51 iterations of the pixel loop run, with
the calls of `show_progress` at samples 0 and 50; the next one reads past the input. -/
theorem invert_prefix_1x53 :
    (∃ s, forPrefix (gray1x53.width * gray1x53.height * gray1x53.channels)
        gray1x53.channels (invertBody gray1x53) 51 0
        (malloc sampleEnv.heap (gray1x53.width * gray1x53.height * gray1x53.channels), [])
          = .ok (51, s) ∧
      s.2 = [Out.progress "Invert   " (floatDiv (floatOfInt 0) (floatOfInt 53)),
             Out.progress "Invert   " (floatDiv (floatOfInt 50) (floatOfInt 53))]) ∧
    forPrefix (gray1x53.width * gray1x53.height * gray1x53.channels)
        gray1x53.channels (invertBody gray1x53) 52 0
        (malloc sampleEnv.heap (gray1x53.width * gray1x53.height * gray1x53.channels), [])
          = .error .outOfBounds :=
  ⟨⟨_, rfl, rfl⟩, rfl⟩

set_option maxRecDepth 20000 in
/-- Blur on the 1×50 image: rows 1 and 2 call `show_progress` with 1/50 and 2/50, and
the filter completes after 48 calls in the loop and the final one. -/
theorem blur_prefix_1x50 :
    (∃ s, forPrefix (image1x50.height - 1) 1 (blurRow image1x50) 2 1
        (malloc sampleEnv.heap (image1x50.width * image1x50.height * image1x50.channels), [])
          = .ok (3, s) ∧
      s.2 = [Out.progress "Blur     " (floatDiv (floatOfInt 1) (floatOfInt 50)),
             Out.progress "Blur     " (floatDiv (floatOfInt 2) (floatOfInt 50))]) ∧
    ∃ run, apply_blur sampleEnv image1x50 = .ok run ∧ run.console.length = 51 :=
  ⟨⟨_, rfl, rfl⟩, _, rfl, rfl⟩

/-- C16, worked examples.  Grayscale on the 1×51 image: the loop runs its 51
iterations and calls `show_progress` at samples 0 and 150.  Invert on the 1×53
single-channel image: 51 iterations run, with calls at samples 0 and 50, before the
fault.  Blur on the 1×50 image: rows 1 and 2 call with 1/50 and 2/50, and the filter
completes.  All these calls are in range, and so is the fraction at sample 150 of 153,
the `float` 16448251 / 2^24, with bar position 39 and percentage 98. -/
theorem progress_fractions_in_range_witness :
    (∃ s, forPrefix (image1x51.width * image1x51.height * image1x51.channels)
        image1x51.channels (grayscaleBody image1x51) 51 0
        (malloc sampleEnv.heap (image1x51.width * image1x51.height * image1x51.channels), [])
          = .ok (153, s) ∧
      s.2 = [Out.progress "Grayscale" (floatDiv (floatOfInt 0) (floatOfInt 153)),
             Out.progress "Grayscale" (floatDiv (floatOfInt 150) (floatOfInt 153))] ∧
      FractionsInRange s.2) ∧
    (∃ s, forPrefix (gray1x53.width * gray1x53.height * gray1x53.channels)
        gray1x53.channels (invertBody gray1x53) 51 0
        (malloc sampleEnv.heap (gray1x53.width * gray1x53.height * gray1x53.channels), [])
          = .ok (51, s) ∧
      s.2 = [Out.progress "Invert   " (floatDiv (floatOfInt 0) (floatOfInt 53)),
             Out.progress "Invert   " (floatDiv (floatOfInt 50) (floatOfInt 53))] ∧
      FractionsInRange s.2) ∧
    (∃ s, forPrefix (image1x50.height - 1) 1 (blurRow image1x50) 2 1
        (malloc sampleEnv.heap (image1x50.width * image1x50.height * image1x50.channels), [])
          = .ok (3, s) ∧
      s.2 = [Out.progress "Blur     " (floatDiv (floatOfInt 1) (floatOfInt 50)),
             Out.progress "Blur     " (floatDiv (floatOfInt 2) (floatOfInt 50))] ∧
      FractionsInRange s.2) ∧
    (∃ run, apply_blur sampleEnv image1x50 = .ok run ∧ run.console.length = 51 ∧
      FractionsInRange run.console) ∧
    ((0 : Int) ≤ 150 ∧ (150 : Int) < 153 ∧
      InRange "Grayscale" (floatDiv (floatOfInt 150) (floatOfInt 153)) ∧
      floatDiv (floatOfInt 150) (floatOfInt 153) = 16448251 / 16777216 ∧
      intOfFloat (floatMul (floatOfInt 40) (16448251 / 16777216)) = .ok 39 ∧
      intOfFloat (floatMul (16448251 / 16777216) (floatOfInt 100)) = .ok 98) := by
  obtain ⟨sg, hg, hg'⟩ := grayscale_prefix_1x51
  obtain ⟨⟨si, hi, hi'⟩, _⟩ := invert_prefix_1x53
  obtain ⟨⟨sb, hb, hb'⟩, run, hrun, hlen⟩ := blur_prefix_1x50
  exact
    ⟨⟨sg, hg, hg', (progress_fractions_in_range sampleEnv image1x51).2.2.1 51 153 sg hg⟩,
     ⟨si, hi, hi', (progress_fractions_in_range sampleEnv gray1x53).2.2.2.1 51 51 si hi⟩,
     ⟨sb, hb, hb', (progress_fractions_in_range sampleEnv image1x50).2.2.2.2.1 2 3 sb hb⟩,
     ⟨run, hrun, hlen,
       (progress_fractions_in_range sampleEnv image1x50).2.2.2.2.2 run (Or.inr (Or.inr hrun))⟩,
     ⟨by decide, by decide,
       (progress_fractions_in_range sampleEnv image1x51).1 "Grayscale" 150 153
         (by decide) (by decide),
       fraction_150_of_153⟩⟩

/-! ## Progress bar -/

/-- The 40 cells the loop of `show_progress` prints, for a bar position in [0, 40]. -/
theorem bar_cells (pos : Int) (h0 : 0 ≤ pos) (h1 : pos ≤ 40) :
    (List.range 40).map (fun i : Nat =>
        if (i : Int) < pos then '=' else if (i : Int) = pos then '>' else ' ')
      = barLayout pos.toNat := by
  obtain ⟨n, rfl⟩ := Int.eq_ofNat_of_zero_le h0
  have hn : n ≤ 40 := by omega
  interval_cases n <;> rfl

theorem barLayout_length (pos : Nat) (h : pos ≤ 40) : (barLayout pos).length = 40 := by
  unfold barLayout
  split
  · simp only [List.length_append, List.length_replicate, List.length_cons]; omega
  · simp only [List.length_append, List.length_replicate, List.length_nil]; omega

theorem barLayout_cells (pos : Nat) :
    ∀ cell ∈ barLayout pos, cell = '=' ∨ cell = '>' ∨ cell = ' ' := by
  intro cell hcell
  unfold barLayout at hcell
  split at hcell
  · simp only [List.mem_append, List.mem_cons, List.mem_replicate] at hcell
    rcases hcell with ⟨_, h⟩ | h | ⟨_, h⟩
    · exact Or.inl h
    · exact Or.inr (Or.inl h)
    · exact Or.inr (Or.inr h)
  · simp only [List.append_nil, List.mem_replicate] at hcell
    exact Or.inl hcell.2

theorem barLayout_arrow (pos : Nat) : '>' ∈ barLayout pos ↔ pos < 40 := by
  unfold barLayout
  constructor
  · intro hmem
    split at hmem
    · assumption
    · simp only [List.append_nil, List.mem_replicate] at hmem
      exact absurd hmem.2 (by decide)
  · intro hlt
    rw [if_pos hlt]
    simp

/-- The printed line in the words of the specification, for a bar position in [0, 40]. -/
theorem progressLine_eq (task : String) (pos pct : Int) (h0 : 0 ≤ pos) (h1 : pos ≤ 40) :
    progressLine task pos pct
      = "\r" ++ task ++ " [" ++ String.mk (barLayout pos.toNat) ++ "] " ++ pad3 pct ++ "%" := by
  unfold progressLine
  simp only []
  rw [show (40 : Int).toNat = 40 from rfl, bar_cells pos h0 h1]

/-- The floor of a rounded product is the floor of the exact product or one more. -/
theorem floor_roundFloat_near (x : Rat) (h0 : 0 ≤ x) (h1 : x ≤ 1000) :
    ⌊roundFloat x⌋ = ⌊x⌋ ∨ ⌊roundFloat x⌋ = ⌊x⌋ + 1 := by
  have hf0 : 0 ≤ ⌊x⌋ := Int.floor_nonneg.mpr h0
  have hf1 : ⌊x⌋ ≤ 1000 := by
    have := Int.floor_le_floor h1
    rwa [show ((1000 : Rat)) = ((1000 : Int) : Rat) by norm_num, Int.floor_intCast] at this
  have hb := roundFloat_between x ⌊x⌋ (⌊x⌋ + 1) (by omega) (by omega) (Int.floor_le x)
    (by push_cast; exact (Int.lt_floor_add_one x).le)
  have a : ⌊x⌋ ≤ ⌊roundFloat x⌋ := Int.le_floor.mpr hb.1
  have b : ⌊roundFloat x⌋ ≤ ⌊x⌋ + 1 := by
    have := Int.floor_le_floor hb.2
    rwa [Int.floor_intCast] at this
  omega

/-- The fraction 0.175 as a `float` and its line: the product by 40 rounds up to 7. -/
theorem show_progress_0175 :
    roundFloat (11744051 / 67108864) = 11744051 / 67108864 ∧
    show_progress "Grayscale" (11744051 / 67108864)
      = .ok "\rGrayscale [=======>                                ]  17%" := by
  have e0 : roundFloat (11744051 / 67108864) = 11744051 / 67108864 := by
    rw [roundFloat_eval _ (-3) 11744051 (by norm_num) (by norm_num) (by norm_num) (by norm_num)
      (by norm_num [abs_lt])]
    norm_num
  have e1 : roundFloat (40 * (11744051 / 67108864)) = 7 := by
    rw [roundFloat_eval _ 2 (7 * 2 ^ 21) (by norm_num) (by norm_num) (by norm_num) (by norm_num)
      (by norm_num [abs_lt])]
    norm_num
  have e2 : roundFloat (11744051 / 67108864 * 100) = 35 / 2 := by
    rw [roundFloat_eval _ 4 9175040 (by norm_num) (by norm_num) (by norm_num) (by norm_num)
      (by norm_num [abs_lt])]
    norm_num
  refine ⟨e0, ?_⟩
  rw [show_progress_unit _ _ (by norm_num) (by norm_num),
    floatOfInt_eq 40 (by norm_num) (by norm_num), floatOfInt_eq 100 (by norm_num) (by norm_num)]
  unfold floatMul
  push_cast
  rw [e1, e2]
  have a : ⌊(7 : Rat)⌋ = 7 := by norm_num
  have b : ⌊(35 / 2 : Rat)⌋ = 17 := by
    rw [Int.floor_eq_iff]; norm_num
  rw [a, b]
  decide

/-- The fraction 0.01 as a `float` and its line: the product by 100 rounds up to 1. -/
theorem show_progress_001 :
    roundFloat (5368709 / 536870912) = 5368709 / 536870912 ∧
    show_progress "Grayscale" (5368709 / 536870912)
      = .ok "\rGrayscale [>                                       ]   1%" := by
  have e0 : roundFloat (5368709 / 536870912) = 5368709 / 536870912 := by
    rw [roundFloat_eval _ (-7) 10737418 (by norm_num) (by norm_num) (by norm_num) (by norm_num)
      (by norm_num [abs_lt])]
    norm_num
  have e1 : roundFloat (40 * (5368709 / 536870912)) = 3355443 / 8388608 := by
    rw [roundFloat_tie _ (-2) 13421772 (by norm_num) (by norm_num) (by norm_num) (by norm_num)
      (by norm_num) (by decide)]
    norm_num
  have e2 : roundFloat (5368709 / 536870912 * 100) = 1 := by
    rw [roundFloat_eval _ (-1) (2 ^ 24) (by norm_num) (by norm_num) (by norm_num) (by norm_num)
      (by norm_num [abs_lt])]
    norm_num
  refine ⟨e0, ?_⟩
  rw [show_progress_unit _ _ (by norm_num) (by norm_num),
    floatOfInt_eq 40 (by norm_num) (by norm_num), floatOfInt_eq 100 (by norm_num) (by norm_num)]
  unfold floatMul
  push_cast
  rw [e1, e2]
  have a : ⌊(3355443 / 8388608 : Rat)⌋ = 0 := by
    rw [Int.floor_eq_iff]; norm_num
  have b : ⌊(1 : Rat)⌋ = 1 := by norm_num
  rw [a, b]
  decide

/-- The line for 1.0: forty cells `=` and 100 percent. -/
theorem show_progress_one (task : String) :
    show_progress task 1
      = .ok ("\r" ++ task ++ " [" ++ "========================================" ++ "] "
          ++ "100" ++ "%") := by
  rw [show_progress_unit _ _ (by norm_num) (by norm_num),
    floatOfInt_eq 40 (by norm_num) (by norm_num), floatOfInt_eq 100 (by norm_num) (by norm_num)]
  unfold floatMul
  have e1 : roundFloat (((40 : Int) : Rat) * 1) = 40 := by
    simpa using roundFloat_intCast 40 (by norm_num) (by norm_num)
  have e2 : roundFloat (1 * ((100 : Int) : Rat)) = 100 := by
    simpa using roundFloat_intCast 100 (by norm_num) (by norm_num)
  rw [e1, e2]
  have a : ⌊(40 : Rat)⌋ = 40 := by norm_num
  have b : ⌊(100 : Rat)⌋ = 100 := by norm_num
  rw [a, b]
  rfl

/-- C17, counterexample.  The `float` 0.175 is in [0, 1] and `floor(40 f) = 6`, but
`show_progress` prints 7 cells `=`: the `float` product `40 * f` is 7.  The `float`
0.01 is in [0, 1] and `floor(100 f) = 0`, but `show_progress` prints 1%: the `float`
product `f * 100` is 1. -/
theorem progress_bar_rounds_up :
    ((0 : Rat) ≤ 11744051 / 67108864 ∧ (11744051 / 67108864 : Rat) ≤ 1 ∧
      roundFloat (11744051 / 67108864) = 11744051 / 67108864 ∧
      ⌊(40 : Rat) * (11744051 / 67108864)⌋ = 6 ∧
      show_progress "Grayscale" (11744051 / 67108864)
        = .ok "\rGrayscale [=======>                                ]  17%" ∧
      barLayout 6 ≠ "=======>                                ".data) ∧
    ((0 : Rat) ≤ 5368709 / 536870912 ∧ (5368709 / 536870912 : Rat) ≤ 1 ∧
      roundFloat (5368709 / 536870912) = 5368709 / 536870912 ∧
      ⌊(100 : Rat) * (5368709 / 536870912)⌋ = 0 ∧
      show_progress "Grayscale" (5368709 / 536870912)
        = .ok "\rGrayscale [>                                       ]   1%") := by
  refine ⟨⟨by norm_num, by norm_num, show_progress_0175.1, ?_, show_progress_0175.2, by decide⟩,
    ⟨by norm_num, by norm_num, show_progress_001.1, ?_, show_progress_001.2⟩⟩
  · rw [Int.floor_eq_iff]; norm_num
  · rw [Int.floor_eq_iff]; norm_num

/-- C17 (as amended). Progress bar layout: for a fraction `f` in [0, 1], `show_progress`
prints the label, then between `[` and `]` exactly 40 cells, namely `pos` cells `=`, one
`>` exactly when `pos < 40`, and spaces; then the percentage `pct` in three columns.
Here `pos` is the floor of the `float` product `40 * f` and `pct` the floor of the
`float` product `f * 100`: `pos` is `floor(40 f)` or one more and lies in [0, 40],
`pct` is `floor(100 f)` or one more and lies in [0, 100].  At `f = 1` the bar is 40
cells `=` with no `>`, followed by 100. -/
theorem progress_bar_layout (task : String) (f : Rat) (h0 : 0 ≤ f) (h1 : f ≤ 1) :
    ∃ pos pct : Int,
      show_progress task f
        = .ok ("\r" ++ task ++ " [" ++ String.mk (barLayout pos.toNat) ++ "] "
            ++ pad3 pct ++ "%") ∧
      pos = ⌊floatMul (floatOfInt 40) f⌋ ∧ pct = ⌊floatMul f (floatOfInt 100)⌋ ∧
      (pos = ⌊40 * f⌋ ∨ pos = ⌊40 * f⌋ + 1) ∧ 0 ≤ pos ∧ pos ≤ 40 ∧
      (pct = ⌊100 * f⌋ ∨ pct = ⌊100 * f⌋ + 1) ∧ 0 ≤ pct ∧ pct ≤ 100 ∧
      (barLayout pos.toNat).length = 40 ∧
      (∀ cell ∈ barLayout pos.toNat, cell = '=' ∨ cell = '>' ∨ cell = ' ') ∧
      ('>' ∈ barLayout pos.toNat ↔ pos < 40) ∧
      show_progress task 1
        = .ok ("\r" ++ task ++ " [" ++ "========================================" ++ "] "
            ++ "100" ++ "%") := by
  have a := bar_position_unit f h0 h1
  have b := percentage_unit f h0 h1
  refine ⟨_, _, ?_, rfl, rfl, ?_, a.2.1, a.2.2, ?_, b.2.1, b.2.2,
    barLayout_length _ (by omega), barLayout_cells _, ?_, show_progress_one task⟩
  · rw [show_progress_unit task f h0 h1, progressLine_eq task _ _ a.2.1 a.2.2]
  · rw [floatOfInt_eq 40 (by norm_num) (by norm_num)]
    unfold floatMul
    push_cast
    exact floor_roundFloat_near _ (by positivity) (by linarith)
  · rw [floatOfInt_eq 100 (by norm_num) (by norm_num)]
    unfold floatMul
    push_cast
    rw [mul_comm f 100]
    exact floor_roundFloat_near _ (by positivity) (by linarith)
  · rw [barLayout_arrow]
    omega

/-- C17 (as amended), worked example: the statement at the `float` 0.175, where the bar
has 7 cells `=` and the percentage is 17. -/
theorem progress_bar_layout_witness :
    ((0 : Rat) ≤ 11744051 / 67108864 ∧ (11744051 / 67108864 : Rat) ≤ 1) ∧
    ∃ pos pct : Int,
      show_progress "Grayscale" (11744051 / 67108864)
        = .ok ("\r" ++ "Grayscale" ++ " [" ++ String.mk (barLayout pos.toNat) ++ "] "
            ++ pad3 pct ++ "%") ∧
      pos = ⌊floatMul (floatOfInt 40) (11744051 / 67108864)⌋ ∧
      pct = ⌊floatMul (11744051 / 67108864) (floatOfInt 100)⌋ ∧
      (pos = ⌊40 * (11744051 / 67108864 : Rat)⌋ ∨ pos = ⌊40 * (11744051 / 67108864 : Rat)⌋ + 1) ∧
      0 ≤ pos ∧ pos ≤ 40 ∧
      (pct = ⌊100 * (11744051 / 67108864 : Rat)⌋ ∨
        pct = ⌊100 * (11744051 / 67108864 : Rat)⌋ + 1) ∧ 0 ≤ pct ∧ pct ≤ 100 ∧
      (barLayout pos.toNat).length = 40 ∧
      (∀ cell ∈ barLayout pos.toNat, cell = '=' ∨ cell = '>' ∨ cell = ' ') ∧
      ('>' ∈ barLayout pos.toNat ↔ pos < 40) ∧
      show_progress "Grayscale" 1
        = .ok ("\r" ++ "Grayscale" ++ " [" ++ "========================================" ++ "] "
            ++ "100" ++ "%") :=
  ⟨⟨by norm_num, by norm_num⟩,
    progress_bar_layout "Grayscale" (11744051 / 67108864) (by norm_num) (by norm_num)⟩

/-! ## The percentage field can be read back -/

theorem digitChar_value (k : Nat) (h : k < 10) : (Nat.digitChar k).toNat - 48 = k := by
  interval_cases k <;> rfl

theorem digitChar_ne_minus (k : Nat) (h : k < 10) : Nat.digitChar k ≠ '-' := by
  interval_cases k <;> decide

theorem toDigitsCore_value (fuel : Nat) :
    ∀ (n : Nat) (ds : List Char), n < fuel →
      (Nat.toDigitsCore 10 fuel n ds).foldl (fun acc c => 10 * acc + (c.toNat - 48)) 0
        = ds.foldl (fun acc c => 10 * acc + (c.toNat - 48)) n := by
  induction fuel with
  | zero => intro n ds h; omega
  | succ m ih =>
    intro n ds h
    unfold Nat.toDigitsCore
    simp only []
    have hd := digitChar_value (n % 10) (Nat.mod_lt _ (by norm_num))
    split
    · rename_i hz
      simp only [List.foldl_cons, hd]
      congr 1
      omega
    · rename_i hz
      rw [ih (n / 10) _ (by omega)]
      simp only [List.foldl_cons, hd]
      congr 1
      omega

theorem toDigitsCore_no_minus (fuel : Nat) :
    ∀ (n : Nat) (ds : List Char), '-' ∉ ds → '-' ∉ Nat.toDigitsCore 10 fuel n ds := by
  induction fuel with
  | zero => intro n ds h; simpa [Nat.toDigitsCore] using h
  | succ m ih =>
    intro n ds h
    unfold Nat.toDigitsCore
    simp only []
    have hd := digitChar_ne_minus (n % 10) (Nat.mod_lt _ (by norm_num))
    have hc : '-' ∉ Nat.digitChar (n % 10) :: ds := by
      simp only [List.mem_cons, not_or]
      exact ⟨fun h' => hd h'.symm, h⟩
    split
    · exact hc
    · exact ih _ _ hc

theorem digitsValue_toDigits (n : Nat) : digitsValue (Nat.toDigits 10 n) = n := by
  unfold digitsValue Nat.toDigits
  rw [toDigitsCore_value (n + 1) n [] (by omega)]
  rfl

theorem digitsValue_blank (k : Nat) (cs : List Char) :
    digitsValue (List.replicate k ' ' ++ cs) = digitsValue cs := by
  unfold digitsValue
  induction k with
  | zero => rfl
  | succ m ih =>
    rw [List.replicate_succ, List.cons_append, List.foldl_cons]
    exact ih

theorem digitsValue_minus (cs : List Char) : digitsValue ('-' :: cs) = digitsValue cs := by
  unfold digitsValue
  rw [List.foldl_cons]
  rfl

/-- Characters of a `%3d` field. -/
theorem pad3_data (v : Int) :
    (pad3 v).data = List.replicate (3 - (toString v).length) ' ' ++ (toString v).data := by
  unfold pad3
  simp only [String.data_append]

theorem toString_ofNat_data (m : Nat) : (toString (Int.ofNat m)).data = Nat.toDigits 10 m :=
  rfl

theorem toString_negSucc_data (m : Nat) :
    (toString (Int.negSucc m)).data = '-' :: Nat.toDigits 10 (m + 1) :=
  rfl

/-- The `%3d` field of an integer denotes that integer. -/
theorem fieldValue_pad3 (v : Int) : fieldValue (pad3 v).data = v := by
  rw [pad3_data]
  cases v with
  | ofNat m =>
    rw [toString_ofNat_data]
    have hno : '-' ∉ List.replicate (3 - (toString (Int.ofNat m)).length) ' '
        ++ Nat.toDigits 10 m := by
      simp only [List.mem_append, List.mem_replicate, not_or]
      exact ⟨fun h => absurd h.2 (by decide), toDigitsCore_no_minus _ _ _ (by simp)⟩
    unfold fieldValue
    rw [if_neg hno, digitsValue_blank, digitsValue_toDigits]
    rfl
  | negSucc m =>
    rw [toString_negSucc_data]
    have hyes : '-' ∈ List.replicate (3 - (toString (Int.negSucc m)).length) ' '
        ++ '-' :: Nat.toDigits 10 (m + 1) := by
      simp
    unfold fieldValue
    rw [if_pos hyes, digitsValue_blank, digitsValue_minus, digitsValue_toDigits]
    rfl

theorem pad3_injective (a b : Int) (h : pad3 a = pad3 b) : a = b := by
  rw [← fieldValue_pad3 a, ← fieldValue_pad3 b, h]

/-- Two lines for the same label show the same percentage only if the percentages are
equal. -/
theorem progressLine_percentage (task : String) (p q p' q' : Int)
    (h : progressLine task p q = progressLine task p' q') : q = q' := by
  unfold progressLine at h
  have hd := congrArg String.data h
  simp only [String.data_append] at hd
  rw [List.append_left_inj] at hd
  have hlen : ("\r".data ++ task.data ++ " [".data
      ++ (List.map (fun i : Nat => if (i : Int) < p then '=' else if (i : Int) = p then '>'
        else ' ') (List.range (40 : Int).toNat)) ++ "] ".data).length
      = ("\r".data ++ task.data ++ " [".data
      ++ (List.map (fun i : Nat => if (i : Int) < p' then '=' else if (i : Int) = p' then '>'
        else ' ') (List.range (40 : Int).toNat)) ++ "] ".data).length := by
    simp only [List.length_append, List.length_map, List.length_range]
  have := (List.append_inj hd hlen).2
  exact pad3_injective q q' (String.ext this)

/-! ## Fractions outside [0, 1] -/

/-- A line whose percentage cannot be `q` is not a line with percentage `q`. -/
theorem render_ne (task : String) (a b : Except Fault Int) (p q : Int)
    (hb : ∀ n, b = .ok n → n ≠ q) :
    (a >>= fun pos => b >>= fun pct => Except.ok (progressLine task pos pct))
      ≠ .ok (progressLine task p q) := by
  intro h
  obtain ⟨pos, _, h⟩ := bind_ok h
  obtain ⟨pct, hpct, h⟩ := bind_ok h
  simp only [Except.ok.injEq] at h
  exact hb pct hpct (progressLine_percentage task _ _ _ _ h)

theorem show_progress_exact_zero (task : String) :
    show_progress_exact task 0 = .ok (progressLine task 0 0) := by
  unfold show_progress_exact
  have a : intOfFloat (((40 : Int) : Rat) * 0) = .ok 0 :=
    intOfFloat_eq _ 0 (by norm_num) (by norm_num) (by norm_num) (by norm_num)
  have b : intOfFloat ((0 : Rat) * 100) = .ok 0 :=
    intOfFloat_eq _ 0 (by norm_num) (by norm_num) (by norm_num) (by norm_num)
  simp only [a, b, bind, Except.bind]

theorem show_progress_exact_one (task : String) :
    show_progress_exact task 1 = .ok (progressLine task 40 100) := by
  unfold show_progress_exact
  have a : intOfFloat (((40 : Int) : Rat) * 1) = .ok 40 :=
    intOfFloat_eq _ 40 (by norm_num) (by norm_num) (by norm_num) (by norm_num)
  have b : intOfFloat ((1 : Rat) * 100) = .ok 100 :=
    intOfFloat_eq _ 100 (by norm_num) (by norm_num) (by norm_num) (by norm_num)
  simp only [a, b, bind, Except.bind]

theorem show_progress_zero (task : String) :
    show_progress task 0 = .ok (progressLine task 0 0) := by
  rw [show_progress_unit task 0 (le_refl _) (by norm_num)]
  unfold floatMul
  rw [mul_zero, zero_mul, roundFloat_zero, Int.floor_zero]

theorem show_progress_one_line (task : String) :
    show_progress task 1 = .ok (progressLine task 40 100) := by
  rw [show_progress_unit _ _ (by norm_num) (by norm_num),
    floatOfInt_eq 40 (by norm_num) (by norm_num), floatOfInt_eq 100 (by norm_num) (by norm_num)]
  unfold floatMul
  have e1 : roundFloat (((40 : Int) : Rat) * 1) = 40 := by
    simpa using roundFloat_intCast 40 (by norm_num) (by norm_num)
  have e2 : roundFloat (1 * ((100 : Int) : Rat)) = 100 := by
    simpa using roundFloat_intCast 100 (by norm_num) (by norm_num)
  rw [e1, e2]
  have a : ⌊(40 : Rat)⌋ = 40 := by norm_num
  have b : ⌊(100 : Rat)⌋ = 100 := by norm_num
  rw [a, b]

/-- With exact products the lines for `f` and for the clamped `f` agree near [0, 1]. -/
theorem exact_line_near_unit (task : String) (f : Rat) (h0 : -1 / 100 < f)
    (h1 : f < 101 / 100) :
    show_progress_exact task f = show_progress_exact task (min (max f 0) 1) := by
  rcases lt_or_le f 0 with hneg | hnn
  · rw [max_eq_right hneg.le, min_eq_left (by norm_num), show_progress_exact_zero]
    unfold show_progress_exact
    have a : intOfFloat (((40 : Int) : Rat) * f) = .ok 0 := by
      rw [intOfFloat_ok _ (by push_cast; linarith) (by push_cast; linarith),
        truncate_eq_zero _ (by push_cast; linarith) (by push_cast; linarith)]
    have b : intOfFloat (f * 100) = .ok 0 := by
      rw [intOfFloat_ok _ (by linarith) (by linarith),
        truncate_eq_zero _ (by linarith) (by linarith)]
    simp only [a, b, bind, Except.bind]
  · rw [max_eq_left hnn]
    rcases le_or_lt f 1 with hle | hgt
    · rw [min_eq_left hle]
    · rw [min_eq_right hgt.le, show_progress_exact_one]
      unfold show_progress_exact
      have a : intOfFloat (((40 : Int) : Rat) * f) = .ok 40 :=
        intOfFloat_eq _ 40 (by norm_num) (by norm_num) (by push_cast; linarith)
          (by push_cast; linarith)
      have b : intOfFloat (f * 100) = .ok 100 :=
        intOfFloat_eq _ 100 (by norm_num) (by norm_num) (by push_cast; linarith)
          (by push_cast; linarith)
      simp only [a, b, bind, Except.bind]

/-- With exact products the lines for `f` and for the clamped `f` differ away from
[0, 1]. -/
theorem exact_line_far (task : String) (f : Rat) (h : f ≤ -1 / 100 ∨ 101 / 100 ≤ f) :
    show_progress_exact task f ≠ show_progress_exact task (min (max f 0) 1) := by
  rcases h with h | h
  · rw [max_eq_right (by linarith), min_eq_left (by norm_num), show_progress_exact_zero]
    unfold show_progress_exact
    apply render_ne
    intro n hn
    have := intOfFloat_le _ n (-1) (by norm_num) hn (by push_cast; linarith)
    omega
  · rw [max_eq_left (by linarith), min_eq_right (by linarith), show_progress_exact_one]
    unfold show_progress_exact
    apply render_ne
    intro n hn
    have := intOfFloat_ge _ n 101 (by norm_num) hn (by push_cast; linarith)
    omega

/-- With `float` products the lines for `f` and for the clamped `f` differ away from
[0, 1]. -/
theorem float_line_far (task : String) (f : Rat) (h : f ≤ -1 / 100 ∨ 101 / 100 ≤ f) :
    show_progress task f ≠ show_progress task (min (max f 0) 1) := by
  rcases h with h | h
  · rw [max_eq_right (by linarith), min_eq_left (by norm_num), show_progress_zero]
    unfold show_progress
    apply render_ne
    intro n hn
    rw [floatOfInt_eq 100 (by norm_num) (by norm_num)] at hn
    have hr : roundFloat (f * ((100 : Int) : Rat)) ≤ ((-1 : Int) : Rat) := by
      have := roundFloat_le_roundFloat (x := f * ((100 : Int) : Rat)) (y := ((-1 : Int) : Rat))
        (by push_cast; linarith)
      rwa [roundFloat_intCast (-1) (by norm_num) (by norm_num)] at this
    have := intOfFloat_le _ n (-1) (by norm_num) hn hr
    omega
  · rw [max_eq_left (by linarith), min_eq_right (by linarith), show_progress_one_line]
    unfold show_progress
    apply render_ne
    intro n hn
    rw [floatOfInt_eq 100 (by norm_num) (by norm_num)] at hn
    have hr : ((101 : Int) : Rat) ≤ roundFloat (f * ((100 : Int) : Rat)) := by
      have := roundFloat_le_roundFloat (x := ((101 : Int) : Rat)) (y := f * ((100 : Int) : Rat))
        (by push_cast; linarith)
      rwa [roundFloat_intCast 101 (by norm_num) (by norm_num)] at this
    have := intOfFloat_ge _ n 101 (by norm_num) hn hr
    omega

/-- The fraction 2: the line shows 200 percent, with exact products and with `float`
products alike. -/
theorem show_progress_two :
    show_progress_exact "Blur     " 2
        = .ok "\rBlur      [========================================] 200%" ∧
    show_progress "Blur     " 2
        = .ok "\rBlur      [========================================] 200%" := by
  have a : intOfFloat (((40 : Int) : Rat) * 2) = .ok 80 :=
    intOfFloat_eq _ 80 (by norm_num) (by norm_num) (by norm_num) (by norm_num)
  have b : intOfFloat ((2 : Rat) * 100) = .ok 200 :=
    intOfFloat_eq _ 200 (by norm_num) (by norm_num) (by norm_num) (by norm_num)
  have e1 : roundFloat (((40 : Int) : Rat) * 2) = ((40 : Int) : Rat) * 2 := by
    have := roundFloat_intCast 80 (by norm_num) (by norm_num)
    norm_num at this ⊢
    exact this
  have e2 : roundFloat ((2 : Rat) * ((100 : Int) : Rat)) = 2 * 100 := by
    have := roundFloat_intCast 200 (by norm_num) (by norm_num)
    norm_num at this ⊢
    exact this
  constructor
  · unfold show_progress_exact
    simp only [a, b, bind, Except.bind]
    decide
  · unfold show_progress
    dsimp only
    rw [floatOfInt_eq 40 (by norm_num) (by norm_num),
      floatOfInt_eq 100 (by norm_num) (by norm_num)]
    unfold floatMul
    rw [e1, e2]
    simp only [a, b, bind, Except.bind]
    decide

/-- The fraction 1e8, a `float`: the bar position 4e9 does not fit an `int`, and the
call has no defined line. -/
theorem show_progress_overflow :
    roundFloat 100000000 = 100000000 ∧
    show_progress "Blur     " 100000000 = .error .castOverflow ∧
    show_progress_exact "Blur     " 100000000 = .error .castOverflow := by
  have e0 : roundFloat 100000000 = 100000000 := by
    rw [roundFloat_eval _ 26 12500000 (by norm_num) (by norm_num) (by norm_num) (by norm_num)
      (by norm_num [abs_lt])]
    norm_num
  have e1 : roundFloat (((40 : Int) : Rat) * 100000000) = 4000000000 := by
    rw [roundFloat_eval _ 31 15625000 (by norm_num) (by norm_num) (by norm_num) (by norm_num)
      (by norm_num [abs_lt])]
    norm_num
  have a : intOfFloat (4000000000 : Rat) = .error .castOverflow := by
    unfold intOfFloat
    rw [if_neg (by norm_num)]
  have a' : intOfFloat (((40 : Int) : Rat) * 100000000) = .error .castOverflow := by
    unfold intOfFloat
    rw [if_neg (by norm_num)]
  refine ⟨e0, ?_, ?_⟩
  · unfold show_progress
    dsimp only
    rw [floatOfInt_eq 40 (by norm_num) (by norm_num)]
    unfold floatMul
    rw [e1, a]
    rfl
  · unfold show_progress_exact
    simp only [a', bind, Except.bind]

/-- C12, counterexample: the fraction 2 is rendered with 200 percent, the clamped
fraction 1 with 100 percent, with exact products as with the `float` products of the
code. -/
theorem progress_line_not_clamped :
    show_progress_exact "Blur     " 2
        = .ok "\rBlur      [========================================] 200%" ∧
    show_progress_exact "Blur     " (min (max 2 0) 1)
        = .ok "\rBlur      [========================================] 100%" ∧
    show_progress_exact "Blur     " 2 ≠ show_progress_exact "Blur     " (min (max 2 0) 1) ∧
    show_progress "Blur     " 2
        = .ok "\rBlur      [========================================] 200%" ∧
    show_progress "Blur     " (min (max 2 0) 1)
        = .ok "\rBlur      [========================================] 100%" ∧
    show_progress "Blur     " 2 ≠ show_progress "Blur     " (min (max 2 0) 1) := by
  have hm : min (max (2 : Rat) 0) 1 = 1 := by norm_num
  have a := show_progress_two.1
  have b : show_progress_exact "Blur     " 1
      = .ok "\rBlur      [========================================] 100%" := by
    rw [show_progress_exact_one]
    decide
  have c := show_progress_two.2
  have d : show_progress "Blur     " 1
      = .ok "\rBlur      [========================================] 100%" := by
    rw [show_progress_one_line]
    decide
  rw [hm]
  refine ⟨a, b, ?_, c, d, ?_⟩
  · rw [a, b]
    decide
  · rw [c, d]
    decide

/-- C12 (as amended). No clamp: `show_progress` renders the fraction it is given.  With
exact products, the line for `f` equals the line for `min(max(f, 0), 1)` exactly when
`-1/100 < f < 101/100`.  With the `float` products of the code, the two lines are equal
for `f` in [0, 1] and differ for every `f ≤ -1/100` and every `f ≥ 101/100`; a call
whose bar position or percentage does not fit an `int` has no line, which differs from
the line of the clamped fraction too. -/
theorem progress_line_clamp (task : String) (f : Rat) :
    (show_progress_exact task f = show_progress_exact task (min (max f 0) 1) ↔
      -1 / 100 < f ∧ f < 101 / 100) ∧
    (0 ≤ f → f ≤ 1 → show_progress task f = show_progress task (min (max f 0) 1)) ∧
    (f ≤ -1 / 100 ∨ 101 / 100 ≤ f →
      show_progress task f ≠ show_progress task (min (max f 0) 1)) := by
  refine ⟨⟨?_, fun h => exact_line_near_unit task f h.1 h.2⟩, ?_, float_line_far task f⟩
  · intro h
    by_contra hn
    have hfar : f ≤ -1 / 100 ∨ 101 / 100 ≤ f := by
      by_contra hc
      push_neg at hc
      exact hn ⟨hc.1, hc.2⟩
    exact exact_line_far task f hfar h
  · intro h0 h1
    rw [max_eq_left h0, min_eq_left h1]

/-- C12 (as amended), worked examples: the fraction 201/200, just above 1, gives the
line of 1 with exact products; the fractions 2 and -3 give other lines than their
clamped values with `float` products; the fraction 1/2 is its own clamped value. -/
theorem progress_line_clamp_witness :
    (((-1 / 100 : Rat) < 201 / 200 ∧ (201 / 200 : Rat) < 101 / 100) ∧
      show_progress_exact "Blur     " (201 / 200)
        = show_progress_exact "Blur     " (min (max (201 / 200) 0) 1)) ∧
    (((0 : Rat) ≤ 1 / 2 ∧ (1 / 2 : Rat) ≤ 1) ∧
      show_progress "Blur     " (1 / 2) = show_progress "Blur     " (min (max (1 / 2) 0) 1)) ∧
    ((101 / 100 : Rat) ≤ 2 ∧
      show_progress "Blur     " 2 ≠ show_progress "Blur     " (min (max 2 0) 1)) ∧
    ((-3 : Rat) ≤ -1 / 100 ∧
      show_progress "Blur     " (-3) ≠ show_progress "Blur     " (min (max (-3) 0) 1)) :=
  ⟨⟨⟨by norm_num, by norm_num⟩,
      (progress_line_clamp "Blur     " (201 / 200)).1.mpr ⟨by norm_num, by norm_num⟩⟩,
   ⟨⟨by norm_num, by norm_num⟩,
      (progress_line_clamp "Blur     " (1 / 2)).2.1 (by norm_num) (by norm_num)⟩,
   ⟨by norm_num, (progress_line_clamp "Blur     " 2).2.2 (Or.inr (by norm_num))⟩,
   ⟨by norm_num, (progress_line_clamp "Blur     " (-3)).2.2 (Or.inl (by norm_num))⟩⟩

/-! ## Encoder result and timing in the console -/

/-- The summary of a run of `main` that returns 0: the success line and the total
computed from the two readings of `clock()`. -/
theorem main_summary (w : World) (run : MainRun) (h : main w = .ok run) (h0 : run.status = 0) :
    Out.text "🎯 All filters completed successfully!\n" ∈ run.console ∧
    Out.seconds "🕒 Total elapsed time:"
      ((w.total_end - w.total_start : Int) / (CLOCKS_PER_SEC : Int)) ∈ run.console := by
  unfold main at h
  split at h
  · cases h
    cases h0
  · obtain ⟨g, _, h⟩ := bind_ok h
    obtain ⟨i, _, h⟩ := bind_ok h
    obtain ⟨b, _, h⟩ := bind_ok h
    cases h
    simp

/-- A filter that completes ends its console output with the final call of
`show_progress` at 1.0, the check mark and its timing line. -/
theorem completion_lines (e : TaskEnv) (t : ThreadData) (run : FilterRun) :
    (apply_grayscale e t = .ok run → ∃ out, run.console = out ++
      [Out.progress "Grayscale" 1, Out.text " ✅\n",
        Out.seconds "🕒 Grayscale completed in"
          ((e.stop - e.start : Int) / (CLOCKS_PER_SEC : Int))]) ∧
    (apply_invert e t = .ok run → ∃ out, run.console = out ++
      [Out.progress "Invert   " 1, Out.text " ✅\n",
        Out.seconds "🕒 Invert completed in"
          ((e.stop - e.start : Int) / (CLOCKS_PER_SEC : Int))]) ∧
    (apply_blur e t = .ok run → ∃ out, run.console = out ++
      [Out.progress "Blur     " 1, Out.text " ✅\n",
        Out.seconds "🕒 Blur completed in"
          ((e.stop - e.start : Int) / (CLOCKS_PER_SEC : Int))]) := by
  refine ⟨fun h => ?_, fun h => ?_, fun h => ?_⟩
  · unfold apply_grayscale at h
    obtain ⟨s, _, h⟩ := bind_ok h
    cases h
    exact ⟨s.2, rfl⟩
  · unfold apply_invert at h
    obtain ⟨s, _, h⟩ := bind_ok h
    cases h
    exact ⟨s.2, rfl⟩
  · unfold apply_blur at h
    obtain ⟨s, _, h⟩ := bind_ok h
    cases h
    exact ⟨s.2, rfl⟩

/-- C11 (as amended). Encode result discarded.  The encoder returns the value the
environment gives it.  The run of each filter task, its console included, is the same
whatever `stbi_write_jpg` returns.  Every filter task that completes ends its console
output with the final progress call at 1.0, the check mark and its timing line,
whatever the encoder returned.  The run of `main` is the same whatever the three encode
calls return, and its summary reports that all filters completed successfully whenever
`main` returns 0. -/
theorem encode_result_discarded (w : World) (vg vi vb : Int) :
    (∀ (e : TaskEnv) (call : EncodeCall) (v : Int),
      stbi_write_jpg { e with written := v } call = (call, v)) ∧
    (∀ (e : TaskEnv) (t : ThreadData) (v : Int),
      apply_grayscale { e with written := v } t = apply_grayscale e t ∧
      apply_invert { e with written := v } t = apply_invert e t ∧
      apply_blur { e with written := v } t = apply_blur e t) ∧
    (∀ (e : TaskEnv) (t : ThreadData) (run : FilterRun),
      (apply_grayscale e t = .ok run → ∃ out, run.console = out ++
        [Out.progress "Grayscale" 1, Out.text " ✅\n",
          Out.seconds "🕒 Grayscale completed in"
            ((e.stop - e.start : Int) / (CLOCKS_PER_SEC : Int))]) ∧
      (apply_invert e t = .ok run → ∃ out, run.console = out ++
        [Out.progress "Invert   " 1, Out.text " ✅\n",
          Out.seconds "🕒 Invert completed in"
            ((e.stop - e.start : Int) / (CLOCKS_PER_SEC : Int))]) ∧
      (apply_blur e t = .ok run → ∃ out, run.console = out ++
        [Out.progress "Blur     " 1, Out.text " ✅\n",
          Out.seconds "🕒 Blur completed in"
            ((e.stop - e.start : Int) / (CLOCKS_PER_SEC : Int))])) ∧
    main { w with gray := { w.gray with written := vg },
                  invert := { w.invert with written := vi },
                  blur := { w.blur with written := vb } } = main w ∧
    (∀ run, main w = .ok run → run.status = 0 →
      Out.text "🎯 All filters completed successfully!\n" ∈ run.console) :=
  ⟨fun _ _ _ => rfl, fun _ _ _ => ⟨rfl, rfl, rfl⟩, completion_lines, rfl,
    fun run h h0 => (main_summary w run h h0).1⟩

/-- C11 (as amended), worked example: the 2×2 image with every encode call returning 0.
The grayscale task ends with the check mark, and `main` returns 0 with the success
line. -/
theorem encode_result_discarded_witness :
    (∃ run, apply_grayscale failingEnv image2x2 = .ok run ∧ ∃ out, run.console = out ++
      [Out.progress "Grayscale" 1, Out.text " ✅\n",
        Out.seconds "🕒 Grayscale completed in"
          ((failingEnv.stop - failingEnv.start : Int) / (CLOCKS_PER_SEC : Int))]) ∧
    ∃ run, main (failingWorld (some image2x2)) = .ok run ∧ run.status = 0 ∧
      Out.text "🎯 All filters completed successfully!\n" ∈ run.console :=
  ⟨⟨_, rfl,
      ((encode_result_discarded (failingWorld (some image2x2)) 0 0 0).2.2.1
        failingEnv image2x2 _).1 rfl⟩,
    ⟨_, rfl, rfl,
      (encode_result_discarded (failingWorld (some image2x2)) 0 0 0).2.2.2.2 _ rfl rfl⟩⟩

/-- C11, counterexample: on the 2×2 image, when every encode call returns 0, each task
prints the same console as when the calls return 1, check mark included, and the
summary still reports success. -/
theorem encode_failure_not_surfaced :
    (∀ call, (stbi_write_jpg failingEnv call).2 = 0) ∧
    (∀ call, (stbi_write_jpg sampleEnv call).2 = 1) ∧
    apply_grayscale failingEnv image2x2 = apply_grayscale sampleEnv image2x2 ∧
    apply_invert failingEnv image2x2 = apply_invert sampleEnv image2x2 ∧
    apply_blur failingEnv image2x2 = apply_blur sampleEnv image2x2 ∧
    (∃ run, apply_grayscale failingEnv image2x2 = .ok run ∧ Out.text " ✅\n" ∈ run.console) ∧
    (∃ run, apply_invert failingEnv image2x2 = .ok run ∧ Out.text " ✅\n" ∈ run.console) ∧
    (∃ run, apply_blur failingEnv image2x2 = .ok run ∧ Out.text " ✅\n" ∈ run.console) ∧
    main (failingWorld (some image2x2)) = main (sampleWorld (some image2x2)) ∧
    (∃ run, main (failingWorld (some image2x2)) = .ok run ∧
      Out.text "🎯 All filters completed successfully!\n" ∈ run.console) :=
  ⟨fun _ => rfl, fun _ => rfl, rfl, rfl, rfl, ⟨_, rfl, by simp⟩, ⟨_, rfl, by simp⟩,
    ⟨_, rfl, by simp⟩, rfl,
    ⟨_, rfl, (main_summary (failingWorld (some image2x2)) _ rfl rfl).1⟩⟩

/-- The run of `main` does not depend on the readings of `gettimeofday`. -/
theorem main_ignores_wall_clock (w : World) (a b : Rat) :
    main { w with start_time := a, end_time := b } = main w :=
  rfl

/-- C13, failing input: the 2×2 image in a world where the two readings of
`gettimeofday` are 2 seconds apart and the two readings of `clock()` 3 seconds of
processor time apart: the line "Total elapsed time" shows 3, the processor time. -/
theorem total_elapsed_is_cpu_time :
    (sampleWorld (some image2x2)).end_time - (sampleWorld (some image2x2)).start_time = 2 ∧
    ((((sampleWorld (some image2x2)).total_end - (sampleWorld (some image2x2)).total_start
        : Int) : Rat) / (CLOCKS_PER_SEC : Int)) = 3 ∧
    ∃ run, main (sampleWorld (some image2x2)) = .ok run ∧
      Out.seconds "🕒 Total elapsed time:" 3 ∈ run.console := by
  have hv : ((((sampleWorld (some image2x2)).total_end
      - (sampleWorld (some image2x2)).total_start : Int) : Rat) / (CLOCKS_PER_SEC : Int)) = 3 := by
    simp only [sampleWorld, CLOCKS_PER_SEC]
    norm_num
  obtain ⟨run, hrun, hst, _, _⟩ := main_success (sampleWorld (some image2x2)) image2x2 rfl
    (by decide) (by decide) (by decide)
  refine ⟨by simp only [sampleWorld]; norm_num, hv, run, hrun, ?_⟩
  have := (main_summary (sampleWorld (some image2x2)) run hrun hst).2
  rwa [hv] at this

/-! ## Blur as an average -/

/-- The floor of a ninth of the window sum lies between any lower and any upper bound
of the nine samples of the window. -/
theorem windowSum_between (t : ThreadData) (x y j lo hi : Int)
    (hlo : ∀ ky kx, -1 ≤ ky → ky ≤ 1 → -1 ≤ kx → kx ≤ 1 →
      lo ≤ peek t.data (((y + ky) * t.width + (x + kx)) * t.channels + j))
    (hhi : ∀ ky kx, -1 ≤ ky → ky ≤ 1 → -1 ≤ kx → kx ≤ 1 →
      peek t.data (((y + ky) * t.width + (x + kx)) * t.channels + j) ≤ hi) :
    lo ≤ windowSum t (y * t.width + x) j / 9 ∧ windowSum t (y * t.width + x) j / 9 ≤ hi := by
  have e : ∀ ky kx : Int, (y * t.width + x + ky * t.width + kx) * t.channels + j
      = ((y + ky) * t.width + (x + kx)) * t.channels + j := by
    intro ky kx; ring
  have l := fun (ky kx : Int) (a : -1 ≤ ky) (b : ky ≤ 1) (c : -1 ≤ kx) (d : kx ≤ 1) =>
    (e ky kx) ▸ hlo ky kx a b c d
  have u := fun (ky kx : Int) (a : -1 ≤ ky) (b : ky ≤ 1) (c : -1 ≤ kx) (d : kx ≤ 1) =>
    (e ky kx) ▸ hhi ky kx a b c d
  unfold windowSum tapRow
  have l1 := l (-1) (-1) (by omega) (by omega) (by omega) (by omega)
  have l2 := l (-1) 0 (by omega) (by omega) (by omega) (by omega)
  have l3 := l (-1) 1 (by omega) (by omega) (by omega) (by omega)
  have l4 := l 0 (-1) (by omega) (by omega) (by omega) (by omega)
  have l5 := l 0 0 (by omega) (by omega) (by omega) (by omega)
  have l6 := l 0 1 (by omega) (by omega) (by omega) (by omega)
  have l7 := l 1 (-1) (by omega) (by omega) (by omega) (by omega)
  have l8 := l 1 0 (by omega) (by omega) (by omega) (by omega)
  have l9 := l 1 1 (by omega) (by omega) (by omega) (by omega)
  have u1 := u (-1) (-1) (by omega) (by omega) (by omega) (by omega)
  have u2 := u (-1) 0 (by omega) (by omega) (by omega) (by omega)
  have u3 := u (-1) 1 (by omega) (by omega) (by omega) (by omega)
  have u4 := u 0 (-1) (by omega) (by omega) (by omega) (by omega)
  have u5 := u 0 0 (by omega) (by omega) (by omega) (by omega)
  have u6 := u 0 1 (by omega) (by omega) (by omega) (by omega)
  have u7 := u 1 (-1) (by omega) (by omega) (by omega) (by omega)
  have u8 := u 1 0 (by omega) (by omega) (by omega) (by omega)
  have u9 := u 1 1 (by omega) (by omega) (by omega) (by omega)
  omega

/-- On an image with at least three channels and height at least 50, every R, G, B
sample of every interior pixel of the encoded blur lies between any lower and any upper
bound of the nine input samples of its window, hence between their minimum and their
maximum. -/
theorem blur_within_range_of_tall (e : TaskEnv) (t : ThreadData) (hc : 3 ≤ t.channels)
    (hlen : (t.data.length : Int) = t.width * t.height * t.channels) (hh : 50 ≤ t.height) :
    ∃ run, apply_blur e t = .ok run ∧
      ∀ x y j lo hi, 1 ≤ x → x ≤ t.width - 2 → 1 ≤ y → y ≤ t.height - 2 → 0 ≤ j → j < 3 →
        (∀ ky kx, -1 ≤ ky → ky ≤ 1 → -1 ≤ kx → kx ≤ 1 →
          lo ≤ peek t.data (((y + ky) * t.width + (x + kx)) * t.channels + j)) →
        (∀ ky kx, -1 ≤ ky → ky ≤ 1 → -1 ≤ kx → kx ≤ 1 →
          peek t.data (((y + ky) * t.width + (x + kx)) * t.channels + j) ≤ hi) →
        ∃ v, load run.encode.pixels ((y * t.width + x) * t.channels + j) = .ok v ∧
          lo ≤ v ∧ v ≤ hi := by
  obtain ⟨run, hrun, hint⟩ := blur_interior_of_tall e t hc hlen hh
  refine ⟨run, hrun, ?_⟩
  intro x y j lo hi hx1 hx hy1 hy hj0 hj3 hlo hhi
  exact ⟨_, hint x y j hx1 hx hy1 hy hj0 hj3, windowSum_between t x y j lo hi hlo hhi⟩

/-- C19, failing input: on the 3×4 image whose samples are all 9, which has two
interior pixels, `apply_blur` stops at the zero divisor `4 / 50` of its progress test:
there is no blur output whose interior samples could equal 9. -/
theorem blur_uniform_3x4_no_output :
    (∀ k, 0 ≤ k → k < 36 → load flat3x4.data k = .ok 9) ∧
    flat3x4.height.tdiv 50 = 0 ∧
    apply_blur sampleEnv flat3x4 = .error .divByZero := by
  refine ⟨?_, by decide, by decide⟩
  intro k h0 h1
  obtain ⟨n, rfl⟩ := Int.eq_ofNat_of_zero_le h0
  have hn : n < 36 := by omega
  interval_cases n <;> rfl

/-! ## Stores on a single-channel image -/

/-- C14, failing input: on the 1×1 single-channel image the block of a filter has one
sample, and the first iteration stores at `i + 1` and `i + 2` with `i = 0`, outside
that block; no filter completes. -/
theorem single_channel_stores_outside_block :
    (malloc sampleEnv.heap (gray1x1.width * gray1x1.height * gray1x1.channels)).length = 1 ∧
    (∀ v, store (malloc sampleEnv.heap (gray1x1.width * gray1x1.height * gray1x1.channels))
      (0 + 1) v = .error .outOfBounds) ∧
    (∀ v, store (malloc sampleEnv.heap (gray1x1.width * gray1x1.height * gray1x1.channels))
      (0 + 2) v = .error .outOfBounds) ∧
    (∀ log, grayscaleBody gray1x1 0
      (malloc sampleEnv.heap (gray1x1.width * gray1x1.height * gray1x1.channels), log)
        = .error .outOfBounds) ∧
    (∀ log, invertBody gray1x1 0
      (malloc sampleEnv.heap (gray1x1.width * gray1x1.height * gray1x1.channels), log)
        = .error .outOfBounds) :=
  ⟨by decide, fun _ => rfl, fun _ => rfl, fun _ => rfl, fun _ => rfl⟩

end ImageProcessor
